import Mathlib

/-!
# iri_model: the C driver of the IRI oracle (`src/c/main.c`, `include/iri.h`)

A shallow embedding of `main`: the flag vector it builds, the request it passes to the
external routine `iri_sub_`, the unit conversion of the returned height buffer, the CSV text
written to `output.csv` and the console profile.

Conventions of the embedding.

* A C `float`/`double` is a value of `Fp`: a finite rational, an infinity or a NaN.
  Arithmetic is IEEE 754 round-to-nearest-even in the format of the C expression
  (`binary32` for `float`, `binary64` for `double`), each operation rounded on its own
  (no contraction, no excess precision).  The sign of a zero is not tracked: it changes no
  comparison and no conversion to `int` in this program (a division by a negative zero
  would give the infinity of the other sign; no statement below depends on the sign of an
  infinity).
* A conversion `(int)x` whose truncated value does not fit the 32-bit `int` has no value
  defined by the language; every function that performs one takes `undef : Fp → ℤ`, the
  value the implementation delivers there, and the theorems hold for every `undef`.
* A C array of `n` elements is a `CArray` of that size; `float a[1000][20]` is stored flat
  and row-major, `a[i][j]` at position `i * 20 + j`.  An access past the end of an array
  has no behaviour defined by the language: a run that makes one ends as
  `Outcome.undefined`, and the statements about the loops are made for at most 1000 rows.
* A `for (int i = 0; i < n; i++)` loop whose body does not assign `i` is `forLoop n body`.
* `iri_sub_`, `readapf107_` and `read_ig_rz_` are external (declared in `iri.h`); the oracle
  is a parameter of `mainWith`.
-/

namespace IriModel

/-! ## Floating point -/

/-- A C floating value: finite, infinite (`neg` is the sign) or NaN. -/
inductive Fp where
  | fin (q : ℚ)
  | inf (neg : Bool)
  | nan
  deriving DecidableEq

/-- An IEEE 754 binary format: precision in bits and the exponent range. -/
structure Format where
  prec : ℕ
  emin : ℤ
  emax : ℤ

/-- C `float`. -/
def binary32 : Format := ⟨24, -126, 127⟩

/-- C `double`. -/
def binary64 : Format := ⟨53, -1022, 1023⟩

/-- Round to the nearest integer, ties to the even one. -/
def roundHalfEven (x : ℚ) : ℤ :=
  let f := ⌊x⌋
  let r := x - f
  if r < 1 / 2 then f
  else if 1 / 2 < r then f + 1
  else if f % 2 = 0 then f else f + 1

/-- Number of binary digits of `n`, by halving (`fuel` bounds the number of steps). -/
def bitsAux : ℕ → ℕ → ℕ
  | 0, _ => 0
  | fuel + 1, n => if n = 0 then 0 else bitsAux fuel (n / 2) + 1

/-- Number of binary digits of `n` (`0` for `0`). -/
def bits (n : ℕ) : ℕ := bitsAux n n

/-- The exponent `e` with `2 ^ e ≤ |x| < 2 ^ (e + 1)`, for `x ≠ 0`. -/
def ilog2 (x : ℚ) : ℤ :=
  let e : ℤ := (bits x.num.natAbs : ℤ) - (bits x.den : ℤ)
  if (2 : ℚ) ^ e ≤ |x| then e else e - 1

/-- The exponent of the binade `x` is rounded in: that of `x`, or `emin` for a subnormal. -/
def binade (emin : ℤ) (x : ℚ) : ℤ := max (ilog2 x) emin

/-- Round `x` to `p` significant bits, ties to even, exponent unbounded above and bounded
below by `emin` (gradual underflow). -/
def rnd (p : ℕ) (emin : ℤ) (x : ℚ) : ℚ :=
  let u : ℚ := (2 : ℚ) ^ (binade emin x - ((p : ℤ) - 1))
  roundHalfEven (x / u) * u

/-- Largest finite value of the format. -/
def Format.maxFinite (f : Format) : ℚ :=
  ((2 : ℚ) ^ f.prec - 1) * (2 : ℚ) ^ (f.emax - ((f.prec : ℤ) - 1))

/-- Round an exact result into the format; it overflows to an infinity of its sign. -/
def Format.round (f : Format) (x : ℚ) : Fp :=
  let r := rnd f.prec f.emin x
  if |r| ≤ f.maxFinite then Fp.fin r else Fp.inf (decide (x < 0))

namespace Fp

/-- Unary minus. -/
def neg : Fp → Fp
  | fin q => fin (-q)
  | inf s => inf (!s)
  | nan => nan

/-- `a + b` in format `f`. -/
def add (f : Format) : Fp → Fp → Fp
  | fin a, fin b => f.round (a + b)
  | fin _, inf t => inf t
  | inf s, fin _ => inf s
  | inf s, inf t => if s = t then inf s else nan
  | _, _ => nan

/-- `a - b` in format `f`. -/
def sub (f : Format) (a b : Fp) : Fp := add f a (neg b)

/-- `a * b` in format `f`. -/
def mul (f : Format) : Fp → Fp → Fp
  | fin a, fin b => f.round (a * b)
  | fin a, inf t => if a = 0 then nan else inf (xor (decide (a < 0)) t)
  | inf s, fin b => if b = 0 then nan else inf (xor s (decide (b < 0)))
  | inf s, inf t => inf (xor s t)
  | _, _ => nan

/-- `a / b` in format `f`; a non-zero value divided by zero is an infinity. -/
def div (f : Format) : Fp → Fp → Fp
  | fin a, fin b =>
      if b = 0 then (if a = 0 then nan else inf (decide (a < 0))) else f.round (a / b)
  | fin _, inf _ => fin 0
  | inf s, fin b => inf (xor s (decide (b < 0)))
  | _, _ => nan

/-- Conversion to format `f` (`float` to `double` and back). -/
def cast (f : Format) : Fp → Fp
  | fin q => f.round q
  | x => x

/-- Conversion of a C `int` to format `f`. -/
def ofInt (f : Format) (i : ℤ) : Fp := f.round (i : ℚ)

/-- C `a <= b` (false when either side is NaN). -/
def le : Fp → Fp → Bool
  | fin a, fin b => decide (a ≤ b)
  | fin _, inf t => !t
  | inf s, fin _ => s
  | inf s, inf t => s || !t
  | _, _ => false

/-- C `a < b` (false when either side is NaN). -/
def lt : Fp → Fp → Bool
  | fin a, fin b => decide (a < b)
  | fin _, inf t => !t
  | inf s, fin _ => s
  | inf s, inf t => s && !t
  | _, _ => false

end Fp

/-- Truncation toward zero. -/
def truncInt (q : ℚ) : ℤ := if 0 ≤ q then ⌊q⌋ else ⌈q⌉

/-- `(int)x` where the language defines it: `x` finite and its truncation a 32-bit `int`. -/
def Fp.toInt? : Fp → Option ℤ
  | Fp.fin q =>
      if -2147483648 ≤ truncInt q ∧ truncInt q ≤ 2147483647 then some (truncInt q) else none
  | _ => none

/-- `(int)x`; `undef x` is what the implementation delivers where `toInt?` is `none`. -/
def Fp.toInt (undef : Fp → ℤ) (x : Fp) : ℤ := (Fp.toInt? x).getD (undef x)

/-- An `int` result reduced to 32 bits.  Signed overflow has no defined behaviour in C; it
is modelled as two's-complement wrap-around, and no statement below relies on a wrap. -/
def wrap32 (x : ℤ) : ℤ := (x + 2147483648) % 4294967296 - 2147483648

/-- `float` operations of `main`. -/
abbrev fadd : Fp → Fp → Fp := Fp.add binary32
/-- `float` subtraction. -/
abbrev fsub : Fp → Fp → Fp := Fp.sub binary32
/-- `float` multiplication. -/
abbrev fmul : Fp → Fp → Fp := Fp.mul binary32
/-- `float` division. -/
abbrev fdiv : Fp → Fp → Fp := Fp.div binary32

/-! ## Loops, arrays, text -/

/-- `for (int i = 0; i < n; i++) s = body i s`. -/
def forLoop {σ : Type} (n : ℤ) (body : ℕ → σ → σ) (s : σ) : σ :=
  (List.range n.toNat).foldl (fun s i => body i s) s

/-- `for (int i = lo; i <= hi; i++) s = body i s`. -/
def forLoopIncl {σ : Type} (lo hi : ℕ) (body : ℕ → σ → σ) (s : σ) : σ :=
  (List.range' lo (hi + 1 - lo)).foldl (fun s i => body i s) s

/-- A C array of `n` elements.  `get` and `set` are the C accesses for an index `i < n`.
For an index outside `0..n-1` C defines no behaviour; the values `get` and `set` have
there (the default element, the array unchanged) stand for nothing in the program, and
`mainWith` makes no such access: a run that would make one is `Outcome.undefined`. -/
structure CArray (α : Type) (n : ℕ) where
  cells : Array α
  size_eq : cells.size = n

/-- The read `a[i]`, for `i < n`. -/
def CArray.get {α : Type} {n : ℕ} [Inhabited α] (a : CArray α n) (i : ℕ) : α :=
  a.cells.getD i default

/-- The assignment `a[i] = v`, for `i < n`. -/
def CArray.set {α : Type} {n : ℕ} (a : CArray α n) (i : ℕ) (v : α) : CArray α n :=
  ⟨a.cells.setD i v, by rw [Array.size_setD]; exact a.size_eq⟩

instance : Inhabited Fp := ⟨Fp.nan⟩

/-- `float a[1000][20]`, stored flat and row-major as C lays it out. -/
abbrev Buffer := CArray Fp 20000

/-- `float b[100]`. -/
abbrev Scalars := CArray Fp 100

/-- `int jf[51]`. -/
abbrev Flags := CArray ℤ 51

/-- The read `a[i][j]` of `float a[1000][20]`, for `i < 1000` and `j < 20`. -/
def Buffer.at (a : Buffer) (i j : ℕ) : Fp := a.get (i * 20 + j)

/-- The assignment `a[i][j] = v` of `float a[1000][20]`, for `i < 1000` and `j < 20`. -/
def Buffer.put (a : Buffer) (i j : ℕ) (v : Fp) : Buffer := a.set (i * 20 + j) v

/-- `printf("%d", n)` for a non-negative `n`. -/
def fmtNat (n : ℕ) : List Char := Nat.toDigits 10 n

/-- `printf("%d", n)`. -/
def fmtInt (n : ℤ) : List Char :=
  if n < 0 then '-' :: fmtNat n.natAbs else fmtNat n.natAbs

/-- Fields of a line of text separated by `sep`. -/
def splitOn (sep : Char) : List Char → List (List Char)
  | [] => [[]]
  | c :: cs =>
      if c = sep then [] :: splitOn sep cs
      else
        match splitOn sep cs with
        | [] => [[c]]
        | f :: fs => (c :: f) :: fs

/-- Lines of a text, each ended by a newline (text after the last newline is dropped). -/
def linesOf : List Char → List (List Char)
  | [] => []
  | c :: cs =>
      if c = '\n' then [] :: linesOf cs
      else
        match linesOf cs with
        | [] => []
        | l :: ls => (c :: l) :: ls

/-! ## Constants of `main` -/

/-- Value of a digit character in a C integer constant. -/
def digitValue (c : Char) : ℕ :=
  if '0' ≤ c ∧ c ≤ '9' then c.toNat - '0'.toNat
  else if 'a' ≤ c ∧ c ≤ 'f' then c.toNat - 'a'.toNat + 10
  else if 'A' ≤ c ∧ c ≤ 'F' then c.toNat - 'A'.toNat + 10
  else 0

/-- Value of a digit sequence in the given base. -/
def digitsValue (base : ℕ) (ds : List Char) : ℕ :=
  ds.foldl (fun v c => v * base + digitValue c) 0

/-- Value of a C integer constant (C11 6.4.4.1): a `0x`/`0X` prefix makes it hexadecimal,
any other leading `0` makes it octal, otherwise it is decimal. -/
def cIntConstant (s : String) : ℤ :=
  match s.toList with
  | '0' :: 'x' :: ds => digitsValue 16 ds
  | '0' :: 'X' :: ds => digitsValue 16 ds
  | '0' :: ds => digitsValue 8 ds
  | ds => digitsValue 10 ds

/-- A C `double` constant written as the decimal fraction `q`. -/
def dlit (q : ℚ) : Fp := binary64.round q

/-- Conversion of a `double` to `float`, as in an initialisation or an assignment. -/
abbrev toFloat : Fp → Fp := Fp.cast binary32

/-- Promotion of a `float` to `double`. -/
abbrev toDouble : Fp → Fp := Fp.cast binary64

/-- The scalar inputs of a model run (main.c:15-23). -/
structure Request where
  jmag : ℤ
  lat : Fp
  lon : Fp
  iy : ℤ
  mmdd : ℤ
  dhour : Fp
  heibeg : Fp
  heiend : Fp
  heistp : Fp

/-- The request written into `main` (main.c:15-23), literal by literal. -/
def builtinRequest : Request where
  jmag := cIntConstant "0"
  lat := toFloat (dlit (378 / 10))
  lon := toFloat (Fp.neg (dlit (754 / 10)))
  iy := cIntConstant "2021"
  mmdd := cIntConstant "0303"
  dhour := toFloat (Fp.add binary64 (dlit 11) (Fp.ofInt binary64 (cIntConstant "25")))
  heibeg := toFloat (dlit 600)
  heiend := toFloat (dlit 800)
  heistp := toFloat (dlit 10)

/-- What `iri_sub_` is handed (iri.h, main.c:74-75).  `jf` lists the 50 elements of the
array starting at `&jf[1]`; `outf` and `oarr` are the arrays as the caller initialised
them. -/
structure IriArgs where
  jf : List ℤ
  jmag : ℤ
  alati : Fp
  along : Fp
  iyyyy : ℤ
  mmdd : ℤ
  dhour : Fp
  heibeg : Fp
  heiend : Fp
  heistp : Fp
  outf : Buffer
  oarr : Scalars

/-- Everything `main` does not determine: the oracle, the contents of the automatic arrays
before they are initialised, whether `fopen` succeeds, and the value of an `int` conversion
the language leaves open.  The oracle is taken to write only through `outf` and `oarr`. -/
structure Env where
  iri_sub_ : IriArgs → Buffer × Scalars
  a0 : Buffer
  b0 : Scalars
  jf0 : Flags
  fopenOk : Bool
  undef : Fp → ℤ

/-- How a run ends: `main` returns a status, or the run leaves the behaviour the language
defines (an access past the end of an array). -/
inductive Outcome where
  | exit (status : ℤ)
  | undefined
  deriving DecidableEq

/-- Observable steps of a run, in order. -/
inductive Event where
  | readapf107
  | read_ig_rz
  | iri_sub (args : IriArgs)
  | printf (format : String) (args : List Fp)
  | fopen (path : String) (mode : String) (ok : Bool)
  | stderr (text : String)
  | fileContents (text : List Char)

/-! ## The body of `main` -/

/-- Zero-fill of `a` (main.c:35-39). -/
def zeroBuffer (a : Buffer) : Buffer :=
  forLoop 1000 (fun i a => forLoop 20 (fun j a => a.put i j (Fp.fin 0)) a) a

/-- Sentinel fill of `b` (main.c:41-43). -/
def initScalars (b : Scalars) : Scalars :=
  forLoop 100 (fun i b => b.set i (Fp.fin (-1))) b

/-- The default switch profile (main.c:48-68): all of 1..50 on, then thirteen off. -/
def defaultFlags (jf : Flags) : Flags :=
  let jf := forLoopIncl 1 50 (fun i jf => jf.set i 1) jf
  let jf := jf.set 4 0
  let jf := jf.set 5 0
  let jf := jf.set 6 0
  let jf := jf.set 21 0
  let jf := jf.set 23 0
  let jf := jf.set 28 0
  let jf := jf.set 29 0
  let jf := jf.set 30 0
  let jf := jf.set 33 0
  let jf := jf.set 35 0
  let jf := jf.set 39 0
  let jf := jf.set 40 0
  let jf := jf.set 47 0
  jf

/-- The quotient `(heiend - heibeg) / heistp` of main.c:79, in `float`. -/
def stepQuotient (heibeg heiend heistp : Fp) : Fp := fdiv (fsub heiend heibeg) heistp

/-- The row count `(int)((heiend - heibeg) / heistp) + 1` (main.c:79). -/
def num_rows_outf (undef : Fp → ℤ) (heibeg heiend heistp : Fp) : ℤ :=
  wrap32 (Fp.toInt undef (stepQuotient heibeg heiend heistp) + 1)

/-- The statement `a[i][0] /= 1.0e6` (main.c:84): the division is done in `double`
(`1.0e6` is a `double` constant) and the result stored back as `float`. -/
def convertCell (x : Fp) : Fp :=
  toFloat (Fp.div binary64 (toDouble x) (Fp.fin 1000000))

/-- The unit-conversion loop (main.c:83-85), for `num_rows <= 1000`: with more rows the
loop stores past the end of `a`, which `mainWith` records as `Outcome.undefined`. -/
def convertUnits (num_rows : ℤ) (a : Buffer) : Buffer :=
  forLoop num_rows (fun i a => a.put i 0 (convertCell (a.at i 0))) a

/-- The labels of the parameter columns (main.c:96-101). -/
def param_names : List String :=
  ["Ne (cm^-3)", "NmF2 (cm^-3)", "HmF2 (km)", "TeF2 (K)",
   "NmE (cm^-3)", "HmE (km)", "TeE (K)", "NeE (cm^-3)",
   "B0 (km)", "B1", "B2", "B3", "B4", "B5", "B6",
   "B7", "B8", "B9", "B10", "B11"]

/-- The header line as written by main.c:94-105, appended to the text `out`. -/
def writeHeader (out : List Char) : List Char :=
  let out := out ++ "Height (km),".toList
  let out := forLoop 20 (fun j out => out ++ ((param_names.getD j "").toList ++ [','])) out
  out ++ ['\n']

/-- The variable `current_height = heibeg + i * heistp` (main.c:108, 139). -/
def current_height (heibeg heistp : Fp) (i : ℕ) : Fp :=
  fadd heibeg (fmul (Fp.ofInt binary32 (i : ℤ)) heistp)

/-- The integer printed first in data row `i`: `(int)current_height` (main.c:109). -/
def rowLabel (undef : Fp → ℤ) (heibeg heistp : Fp) (i : ℕ) : ℤ :=
  Fp.toInt undef (current_height heibeg heistp i)

/-- The integer printed for a table value: `(int)(v + 0.5f)` (main.c:112). -/
def renderParam (undef : Fp → ℤ) (v : Fp) : ℤ :=
  Fp.toInt undef (fadd v (Fp.fin (1 / 2)))

/-- One data row as written by main.c:108-114, appended to `out`. -/
def writeRow (undef : Fp → ℤ) (heibeg heistp : Fp) (a : Buffer) (i : ℕ)
    (out : List Char) : List Char :=
  let out := out ++ fmtInt (rowLabel undef heibeg heistp i)
  let out := forLoop 20 (fun j out => out ++ (',' :: fmtInt (renderParam undef (a.at i j)))) out
  out ++ ['\n']

/-- The text of data row `i` alone: what `writeRow` appends. -/
def rowText (undef : Fp → ℤ) (heibeg heistp : Fp) (a : Buffer) (i : ℕ) : List Char :=
  writeRow undef heibeg heistp a i []

/-- The text written to `output.csv` (main.c:93-115), for `num_rows <= 1000`. -/
def csvText (undef : Fp → ℤ) (heibeg heistp : Fp) (num_rows : ℤ) (a : Buffer) : List Char :=
  forLoop num_rows (writeRow undef heibeg heistp a) (writeHeader [])

/-- The value `electron_density_cm3` printed for row `i` of the console profile
(main.c:138-141): the table entry `a[i][0]` divided by `1.0e6f`, `a` being the table as it
stands at that point of `main`. -/
def electron_density_cm3 (a : Buffer) (i : ℕ) : Fp :=
  fdiv (a.at i 0) (Fp.fin 1000000)

/-- The scalar report lines (main.c:122-132): format and index into `b`. -/
def scalarLines : List (String × ℕ) :=
  [("  OARR(1) (NmF2 / m^-3): %e\n", 0), ("  OARR(2) (HmF2 / km): %f\n", 1),
   ("  OARR(5) (NmE / m^-3): %e\n", 4), ("  OARR(6) (HmE / km): %f\n", 5),
   ("  OARR(10) (B0 / km): %f\n", 9), ("  OARR(33) (Rz12): %f\n", 32),
   ("  OARR(34) (Covington Index): %f\n", 33), ("  OARR(35) (B1): %f\n", 34),
   ("  OARR(39) (IG12): %f\n", 38), ("  OARR(41) (F10.7 daily): %f\n", 40),
   ("  OARR(46) (F10.7_81): %f\n", 45)]

/-- The arguments of the call at main.c:74-75. -/
def callArgs (env : Env) (req : Request) : IriArgs where
  jf := (List.range 50).map (fun k => (defaultFlags env.jf0).get (k + 1))
  jmag := req.jmag
  alati := req.lat
  along := req.lon
  iyyyy := req.iy
  mmdd := req.mmdd
  dhour := req.dhour
  heibeg := req.heibeg
  heiend := req.heiend
  heistp := req.heistp
  outf := zeroBuffer env.a0
  oarr := initScalars env.b0

/-- The table `a` as it stands after the conversion loop (main.c:74-85), for a row count
of at most 1000. -/
def resultTable (env : Env) (req : Request) : Buffer :=
  convertUnits (num_rows_outf env.undef req.heibeg req.heiend req.heistp)
    (env.iri_sub_ (callArgs env req)).1

/-- The body of `main` for a request: the steps taken, in order, and how the run ends.
The loops of main.c:83-85, 107-115 and 137-144 index `a` by `i < num_rows_outf`; when the
row count exceeds 1000 the first of them stores past the end of `float a[1000][20]` before
`output.csv` is opened, and from there on the language defines nothing: the run is
`Outcome.undefined` after the steps taken up to the return of `iri_sub_`. -/
def mainWith (env : Env) (req : Request) : List Event × Outcome :=
  let tr := [Event.readapf107, Event.read_ig_rz]
  let tr := tr ++ [Event.printf "Calling iri_sub_...\n" []]
  let args := callArgs env req
  let b := (env.iri_sub_ args).2
  let tr := tr ++ [Event.iri_sub args]
  let tr := tr ++ [Event.printf "iri_sub_ call finished.\n" []]
  let num_rows := num_rows_outf env.undef req.heibeg req.heiend req.heistp
  if 1000 < num_rows then
    (tr, Outcome.undefined)
  else
    let a := resultTable env req
    let tr := tr ++ [Event.fopen "output.csv" "w" env.fopenOk]
    if env.fopenOk = false then
      (tr ++ [Event.stderr "Error opening file for writing.\n"], Outcome.exit 1)
    else
      let tr := tr ++
        [Event.fileContents (csvText env.undef req.heibeg req.heistp num_rows a)]
      let tr := tr ++ [Event.printf "\nSelected values from output array 'b' (OARR):\n" []]
      let tr := tr ++ scalarLines.map (fun l => Event.printf l.1 [b.get l.2])
      let tr := tr ++ [Event.printf "\nElectron Density profile from 'a' (OUTF(*, 1)):\n" []]
      let tr := forLoop num_rows (fun i tr => tr ++
        [Event.printf "  Height: %.1f km, Ne: %.3e /cm^3\n"
          [current_height req.heibeg req.heistp i, electron_density_cm3 a i]]) tr
      (tr, Outcome.exit 0)

/-- The program: `main` runs its body on the built-in request. -/
def main (env : Env) : List Event × Outcome := mainWith env builtinRequest

/-- An environment for the worked examples: the oracle hands the arrays back as it got
them, `fopen` succeeds, and an `int` conversion the language leaves open yields `INT_MIN`
(what `cvttss2si` delivers on x86-64). -/
def exampleEnv : Env where
  iri_sub_ := fun args => (args.outf, args.oarr)
  a0 := ⟨mkArray 20000 Fp.nan, Array.size_mkArray _ _⟩
  b0 := ⟨mkArray 100 Fp.nan, Array.size_mkArray _ _⟩
  jf0 := ⟨mkArray 51 0, Array.size_mkArray _ _⟩
  fopenOk := true
  undef := fun _ => -2147483648

/-- The built-in request with the height step replaced by zero. -/
def zeroStepRequest : Request := { builtinRequest with heistp := Fp.fin 0 }

/-- A raw height buffer holding 1.0e6 in every cell. -/
def megaBuffer : Buffer := ⟨mkArray 20000 (Fp.fin 1000000), Array.size_mkArray _ _⟩

/-! ## Array layout -/

/-- Flat position of `a[i][j]` in `float a[1000][20]` (row-major, C11 6.5.2.1). -/
def cOffset (i : Fin 1000) (j : Fin 20) : ℕ := i.val * 20 + j.val

/-- Modelled from the spec: the oracle's array `OUTF(20, 1000)` (declared in the Fortran
source of `iri_sub_`, which is not among the files; main.c:26 records its shape) is 1-based
and column-major, so `OUTF(r, c)` lies `(r - 1) + 20 * (c - 1)` elements from its start. -/
def fortranOffset (r c : ℕ) : ℕ := (r - 1) + 20 * (c - 1)

/-! ## Facts about rounding -/

theorem bitsAux_zero (fuel : ℕ) : bitsAux fuel 0 = 0 := by
  cases fuel <;> simp [bitsAux]

theorem bitsAux_spec (fuel : ℕ) : ∀ n : ℕ, 0 < n → n ≤ fuel →
    ∃ k, bitsAux fuel n = k + 1 ∧ 2 ^ k ≤ n ∧ n < 2 ^ (k + 1) := by
  induction fuel with
  | zero => intro n h0 h; omega
  | succ fuel ih =>
    intro n h0 h
    have hn : n ≠ 0 := by omega
    simp only [bitsAux, hn, if_false]
    by_cases h2 : n / 2 = 0
    · refine ⟨0, ?_, ?_, ?_⟩
      · rw [h2, bitsAux_zero]
      · simpa using h0
      · have : n < 2 := by omega
        simpa using this
    · obtain ⟨k, hk, hlo, hhi⟩ := ih (n / 2) (by omega) (by omega)
      refine ⟨k + 1, by rw [hk], ?_, ?_⟩
      · rw [pow_succ]; omega
      · rw [pow_succ]; omega

theorem bits_spec (n : ℕ) (h : 0 < n) :
    ∃ k, bits n = k + 1 ∧ 2 ^ k ≤ n ∧ n < 2 ^ (k + 1) :=
  bitsAux_spec n n h le_rfl

theorem ilog2_spec (x : ℚ) (hx : x ≠ 0) :
    (2 : ℚ) ^ ilog2 x ≤ |x| ∧ |x| < (2 : ℚ) ^ (ilog2 x + 1) := by
  have hnum : 0 < x.num.natAbs := Int.natAbs_pos.mpr (Rat.num_ne_zero.mpr hx)
  obtain ⟨a, ha, ha1, ha2⟩ := bits_spec _ hnum
  obtain ⟨b, hb, hb1, hb2⟩ := bits_spec _ x.den_pos
  have hd : (0 : ℚ) < x.den := by exact_mod_cast x.den_pos
  have habs : |x| = (x.num.natAbs : ℚ) / (x.den : ℚ) := by
    conv_lhs => rw [← Rat.num_div_den x]
    rw [abs_div, Nat.abs_cast, Nat.cast_natAbs, Int.cast_abs]
  have ha1q : (2 : ℚ) ^ a ≤ (x.num.natAbs : ℚ) := by exact_mod_cast ha1
  have ha2q : (x.num.natAbs : ℚ) < (2 : ℚ) ^ (a + 1) := by exact_mod_cast ha2
  have hb1q : (2 : ℚ) ^ b ≤ (x.den : ℚ) := by exact_mod_cast hb1
  have hb2q : (x.den : ℚ) < (2 : ℚ) ^ (b + 1) := by exact_mod_cast hb2
  have he : ((bits x.num.natAbs : ℤ) - (bits x.den : ℤ)) = (a : ℤ) - (b : ℤ) := by
    rw [ha, hb]; push_cast; ring
  have two_pos : (0 : ℚ) < 2 := by norm_num
  have hlow : (2 : ℚ) ^ ((a : ℤ) - (b : ℤ) - 1) ≤ |x| := by
    rw [habs, le_div_iff₀ hd]
    have : (2 : ℚ) ^ ((a : ℤ) - (b : ℤ) - 1) * (2 : ℚ) ^ ((b : ℤ) + 1) = (2 : ℚ) ^ (a : ℤ) := by
      rw [← zpow_add₀ two_pos.ne']; congr 1; ring
    calc (2 : ℚ) ^ ((a : ℤ) - (b : ℤ) - 1) * (x.den : ℚ)
        ≤ (2 : ℚ) ^ ((a : ℤ) - (b : ℤ) - 1) * (2 : ℚ) ^ (b + 1) :=
          mul_le_mul_of_nonneg_left hb2q.le (zpow_nonneg two_pos.le _)
      _ = (2 : ℚ) ^ (a : ℤ) := by exact_mod_cast this
      _ ≤ (x.num.natAbs : ℚ) := by exact_mod_cast ha1q
  have hhigh : |x| < (2 : ℚ) ^ ((a : ℤ) - (b : ℤ) + 1) := by
    rw [habs, div_lt_iff₀ hd]
    have : (2 : ℚ) ^ ((a : ℤ) - (b : ℤ) + 1) * (2 : ℚ) ^ (b : ℤ) = (2 : ℚ) ^ ((a : ℤ) + 1) := by
      rw [← zpow_add₀ two_pos.ne']; congr 1; ring
    calc (x.num.natAbs : ℚ) < (2 : ℚ) ^ (a + 1) := ha2q
      _ = (2 : ℚ) ^ ((a : ℤ) - (b : ℤ) + 1) * (2 : ℚ) ^ (b : ℤ) := by
          rw [this]; exact_mod_cast rfl
      _ ≤ (2 : ℚ) ^ ((a : ℤ) - (b : ℤ) + 1) * (x.den : ℚ) :=
          mul_le_mul_of_nonneg_left (by exact_mod_cast hb1q) (zpow_nonneg two_pos.le _)
  unfold ilog2
  simp only [he]
  split_ifs with h
  · exact ⟨h, hhigh⟩
  · refine ⟨hlow, ?_⟩
    have : (a : ℤ) - (b : ℤ) - 1 + 1 = (a : ℤ) - (b : ℤ) := by ring
    rw [this]
    exact lt_of_not_le h

theorem roundHalfEven_close (x : ℚ) : |x - roundHalfEven x| ≤ 1 / 2 := by
  have h1 := Int.floor_le x
  have h2 := Int.lt_floor_add_one x
  unfold roundHalfEven
  simp only
  split_ifs <;> rw [abs_le] <;> constructor <;> push_cast <;> linarith

theorem roundHalfEven_intCast (n : ℤ) : roundHalfEven (n : ℚ) = n := by
  unfold roundHalfEven
  simp

theorem roundHalfEven_mono {x y : ℚ} (h : x ≤ y) : roundHalfEven x ≤ roundHalfEven y := by
  by_contra hc
  push_neg at hc
  have hx := abs_le.mp (roundHalfEven_close x)
  have hy := abs_le.mp (roundHalfEven_close y)
  have h1 : (roundHalfEven y : ℚ) + 1 ≤ roundHalfEven x := by exact_mod_cast hc
  have hxy : x = y := by linarith [hx.1, hx.2, hy.1, hy.2]
  rw [hxy] at hc
  exact lt_irrefl _ hc

theorem roundHalfEven_neg (x : ℚ) : roundHalfEven (-x) = -roundHalfEven x := by
  have h1 := Int.floor_le x
  have h2 := Int.lt_floor_add_one x
  by_cases hx : x = (⌊x⌋ : ℚ)
  · rw [hx, ← Int.cast_neg, roundHalfEven_intCast, roundHalfEven_intCast]
  · have hlt : (⌊x⌋ : ℚ) < x := lt_of_le_of_ne h1 (Ne.symm hx)
    have hf : ⌊-x⌋ = -⌊x⌋ - 1 := by
      rw [Int.floor_eq_iff]
      push_cast
      constructor <;> linarith
    unfold roundHalfEven
    simp only [hf]
    push_cast
    split_ifs <;> first | omega | (exfalso; linarith)

theorem ilog2_neg (x : ℚ) : ilog2 (-x) = ilog2 x := by
  unfold ilog2
  simp

theorem ilog2_mono {x y : ℚ} (hx : 0 < x) (h : x ≤ y) : ilog2 x ≤ ilog2 y := by
  have hy : 0 < y := lt_of_lt_of_le hx h
  have sx := ilog2_spec x hx.ne'
  have sy := ilog2_spec y hy.ne'
  rw [abs_of_pos hx] at sx
  rw [abs_of_pos hy] at sy
  have : (2 : ℚ) ^ ilog2 x < (2 : ℚ) ^ (ilog2 y + 1) :=
    lt_of_le_of_lt (sx.1.trans h) sy.2
  have := (zpow_lt_zpow_iff_right₀ (by norm_num : (1 : ℚ) < 2)).mp this
  omega

theorem binade_neg (emin : ℤ) (x : ℚ) : binade emin (-x) = binade emin x := by
  unfold binade
  rw [ilog2_neg]

theorem binade_mono (emin : ℤ) {x y : ℚ} (hx : 0 < x) (h : x ≤ y) :
    binade emin x ≤ binade emin y :=
  max_le_max (ilog2_mono hx h) le_rfl

theorem rnd_neg (p : ℕ) (emin : ℤ) (x : ℚ) : rnd p emin (-x) = -rnd p emin x := by
  unfold rnd
  simp only [binade_neg, neg_div, roundHalfEven_neg]
  push_cast
  ring

theorem rnd_nonneg (p : ℕ) (emin : ℤ) {x : ℚ} (hx : 0 ≤ x) : 0 ≤ rnd p emin x := by
  unfold rnd
  simp only
  have hu : (0 : ℚ) < (2 : ℚ) ^ (binade emin x - ((p : ℤ) - 1)) := zpow_pos (by norm_num) _
  have h0 : roundHalfEven (0 : ℚ) ≤ roundHalfEven (x / (2 : ℚ) ^ (binade emin x - ((p : ℤ) - 1))) :=
    roundHalfEven_mono (div_nonneg hx hu.le)
  have h00 : roundHalfEven (0 : ℚ) = 0 := by exact_mod_cast roundHalfEven_intCast 0
  rw [h00] at h0
  exact mul_nonneg (by exact_mod_cast h0) hu.le

theorem rnd_nonpos (p : ℕ) (emin : ℤ) {x : ℚ} (hx : x ≤ 0) : rnd p emin x ≤ 0 := by
  have := rnd_nonneg p emin (neg_nonneg.mpr hx)
  rw [rnd_neg] at this
  linarith

theorem rnd_zero (p : ℕ) (emin : ℤ) : rnd p emin 0 = 0 :=
  le_antisymm (rnd_nonpos p emin le_rfl) (rnd_nonneg p emin le_rfl)

theorem rnd_le_pow (p : ℕ) (emin : ℤ) {x : ℚ} (hx : 0 < x) :
    rnd p emin x ≤ (2 : ℚ) ^ (binade emin x + 1) := by
  have two_pos : (0 : ℚ) < 2 := by norm_num
  set e := binade emin x with he
  have hu : (0 : ℚ) < (2 : ℚ) ^ (e - ((p : ℤ) - 1)) := zpow_pos two_pos _
  have hxlt : x < (2 : ℚ) ^ (e + 1) := by
    have s := (ilog2_spec x hx.ne').2
    rw [abs_of_pos hx] at s
    refine lt_of_lt_of_le s (zpow_le_zpow_right₀ (by norm_num) ?_)
    have : ilog2 x ≤ e := le_max_left _ _
    omega
  have hsplit : (2 : ℚ) ^ (e + 1) = ((2 ^ p : ℤ) : ℚ) * (2 : ℚ) ^ (e - ((p : ℤ) - 1)) := by
    push_cast
    rw [← zpow_natCast, ← zpow_add₀ two_pos.ne']
    congr 1; ring
  have hq : x / (2 : ℚ) ^ (e - ((p : ℤ) - 1)) ≤ ((2 ^ p : ℤ) : ℚ) := by
    rw [div_le_iff₀ hu, ← hsplit]; exact hxlt.le
  have hr := roundHalfEven_mono hq
  rw [roundHalfEven_intCast] at hr
  have hr' : (roundHalfEven (x / (2 : ℚ) ^ (e - ((p : ℤ) - 1))) : ℚ) ≤ ((2 ^ p : ℤ) : ℚ) := by
    exact_mod_cast hr
  unfold rnd
  simp only [← he]
  rw [hsplit]
  exact mul_le_mul_of_nonneg_right hr' hu.le

theorem pow_le_rnd (p : ℕ) (hp : 1 ≤ p) (emin : ℤ) {x : ℚ} (hx : 0 < x)
    (hb : emin < binade emin x) : (2 : ℚ) ^ binade emin x ≤ rnd p emin x := by
  have two_pos : (0 : ℚ) < 2 := by norm_num
  have hlog : binade emin x = ilog2 x := by
    unfold binade at hb ⊢
    rcases max_cases (ilog2 x) emin with ⟨h, _⟩ | ⟨h, _⟩
    · exact h
    · rw [h] at hb; exact absurd hb (lt_irrefl _)
  set e := binade emin x with he
  have hu : (0 : ℚ) < (2 : ℚ) ^ (e - ((p : ℤ) - 1)) := zpow_pos two_pos _
  have hxge : (2 : ℚ) ^ e ≤ x := by
    have s := (ilog2_spec x hx.ne').1
    rw [abs_of_pos hx, ← hlog] at s
    exact s
  obtain ⟨k, rfl⟩ : ∃ k, p = k + 1 := ⟨p - 1, by omega⟩
  have hsplit : (2 : ℚ) ^ e = ((2 ^ k : ℤ) : ℚ) * (2 : ℚ) ^ (e - (((k + 1 : ℕ) : ℤ) - 1)) := by
    push_cast
    rw [← zpow_natCast, ← zpow_add₀ two_pos.ne']
    congr 1; ring
  have hq : ((2 ^ k : ℤ) : ℚ) ≤ x / (2 : ℚ) ^ (e - (((k + 1 : ℕ) : ℤ) - 1)) := by
    rw [le_div_iff₀ hu, ← hsplit]; exact hxge
  have hr := roundHalfEven_mono hq
  rw [roundHalfEven_intCast] at hr
  have hr' : ((2 ^ k : ℤ) : ℚ) ≤
      (roundHalfEven (x / (2 : ℚ) ^ (e - (((k + 1 : ℕ) : ℤ) - 1))) : ℚ) := by
    exact_mod_cast hr
  unfold rnd
  simp only [← he]
  rw [hsplit]
  exact mul_le_mul_of_nonneg_right hr' hu.le

theorem rnd_mono_pos (p : ℕ) (hp : 1 ≤ p) (emin : ℤ) {x y : ℚ} (hx : 0 < x) (h : x ≤ y) :
    rnd p emin x ≤ rnd p emin y := by
  have hy : 0 < y := lt_of_lt_of_le hx h
  rcases (binade_mono emin hx h).lt_or_eq with hlt | heq
  · have h1 := rnd_le_pow p emin hx
    have h2 := pow_le_rnd p hp emin hy (lt_of_le_of_lt (le_max_right _ _) hlt)
    have h3 : (2 : ℚ) ^ (binade emin x + 1) ≤ (2 : ℚ) ^ binade emin y :=
      zpow_le_zpow_right₀ (by norm_num) (by omega)
    exact h1.trans (h3.trans h2)
  · unfold rnd
    simp only [heq]
    have hu : (0 : ℚ) < (2 : ℚ) ^ (binade emin y - ((p : ℤ) - 1)) := zpow_pos (by norm_num) _
    have hq := roundHalfEven_mono (div_le_div_of_nonneg_right h hu.le)
    exact mul_le_mul_of_nonneg_right (by exact_mod_cast hq) hu.le

theorem rnd_mono (p : ℕ) (hp : 1 ≤ p) (emin : ℤ) {x y : ℚ} (h : x ≤ y) :
    rnd p emin x ≤ rnd p emin y := by
  rcases lt_trichotomy 0 x with hx | hx | hx
  · exact rnd_mono_pos p hp emin hx h
  · subst hx
    rw [rnd_zero]
    exact rnd_nonneg p emin h
  · rcases le_or_lt 0 y with hy | hy
    · exact (rnd_nonpos p emin hx.le).trans (rnd_nonneg p emin hy)
    · have := rnd_mono_pos p hp emin (neg_pos.mpr hy) (neg_le_neg h)
      rw [rnd_neg, rnd_neg] at this
      linarith

theorem round_fin_eq (f : Format) {x r : ℚ} (h : f.round x = Fp.fin r) :
    r = rnd f.prec f.emin x := by
  unfold Format.round at h
  simp only at h
  split_ifs at h
  exact (Fp.fin.inj h).symm

theorem round_fin_nonneg (f : Format) {x r : ℚ} (hx : 0 ≤ x) (h : f.round x = Fp.fin r) :
    0 ≤ r := by
  rw [round_fin_eq f h]
  exact rnd_nonneg _ _ hx

theorem round_ne_nan (f : Format) (x : ℚ) : f.round x ≠ Fp.nan := by
  unfold Format.round
  simp only
  split_ifs <;> simp

theorem stepQuotient_nonneg {heibeg heiend heistp : Fp} {q : ℚ}
    (hle : Fp.le heibeg heiend = true) (hstep : Fp.lt (Fp.fin 0) heistp = true)
    (hq : stepQuotient heibeg heiend heistp = Fp.fin q) : 0 ≤ q := by
  unfold stepQuotient fdiv fsub Fp.sub at hq
  rcases heibeg with b | sb | _ <;> rcases heiend with e | se | _ <;>
    rcases heistp with s | ss | _ <;>
    simp only [Fp.le, Fp.lt, Fp.neg, Fp.add, Fp.div, decide_eq_true_eq, Bool.not_eq_true',
      Bool.or_eq_true, Bool.false_eq_true, reduceCtorEq] at hle hstep hq
  · -- all finite
    rcases hd : binary32.round (e + -b) with r | sr | _
    · rw [hd] at hq
      simp only [Fp.div, hstep.ne', if_false] at hq
      have hr : 0 ≤ r := round_fin_nonneg _ (by linarith) hd
      exact round_fin_nonneg _ (div_nonneg hr hstep.le) hq
    · rw [hd] at hq
      simp [Fp.div] at hq
    · exact absurd hd (round_ne_nan _ _)
  · -- finite range, infinite step
    rcases hd : binary32.round (e + -b) with r | sr | _
    · rw [hd] at hq
      simp only [Fp.div] at hq
      exact (Fp.fin.inj hq).le
    · rw [hd] at hq
      simp [Fp.div] at hq
    · exact absurd hd (round_ne_nan _ _)
  all_goals split_ifs at hq

/-! ## Facts about conversions to `int` -/

theorem truncInt_of_nonneg {q : ℚ} (h : 0 ≤ q) : truncInt q = ⌊q⌋ := if_pos h

theorem truncInt_mono {x y : ℚ} (h : x ≤ y) : truncInt x ≤ truncInt y := by
  unfold truncInt
  split_ifs with hx hy hy
  · exact Int.floor_mono h
  · exact absurd (hx.trans h) hy
  · have h1 : ⌈x⌉ ≤ 0 := Int.ceil_le.mpr (by push_cast; linarith)
    have h2 : 0 ≤ ⌊y⌋ := Int.floor_nonneg.mpr hy
    omega
  · exact Int.ceil_mono h

theorem toInt?_eq_some {x : Fp} {n : ℤ} (h : Fp.toInt? x = some n) :
    ∃ q, x = Fp.fin q ∧ n = truncInt q := by
  rcases x with q | s | _
  · refine ⟨q, rfl, ?_⟩
    simp only [Fp.toInt?] at h
    split_ifs at h
    exact (Option.some.inj h).symm
  · simp [Fp.toInt?] at h
  · simp [Fp.toInt?] at h

theorem toInt_of_some (undef : Fp → ℤ) {x : Fp} {n : ℤ} (h : Fp.toInt? x = some n) :
    Fp.toInt undef x = n := by
  simp [Fp.toInt, h]

theorem toInt?_fin_of_range {q : ℚ} (h1 : -2147483648 ≤ truncInt q)
    (h2 : truncInt q ≤ 2147483647) : Fp.toInt? (Fp.fin q) = some (truncInt q) := by
  simp [Fp.toInt?, h1, h2]

theorem wrap32_of_range {x : ℤ} (h1 : -2147483648 ≤ x) (h2 : x ≤ 2147483647) :
    wrap32 x = x := by
  unfold wrap32
  omega

theorem num_rows_outf_eq (undef : Fp → ℤ) {heibeg heiend heistp : Fp} {q : ℚ}
    (hle : Fp.le heibeg heiend = true) (hstep : Fp.lt (Fp.fin 0) heistp = true)
    (hq : stepQuotient heibeg heiend heistp = Fp.fin q) (hcap : ⌊q⌋ + 1 ≤ 1000) :
    num_rows_outf undef heibeg heiend heistp = ⌊q⌋ + 1 ∧ 1 ≤ ⌊q⌋ + 1 := by
  have h0 : 0 ≤ q := stepQuotient_nonneg hle hstep hq
  have hf : 0 ≤ ⌊q⌋ := Int.floor_nonneg.mpr h0
  have ht : truncInt q = ⌊q⌋ := truncInt_of_nonneg h0
  have hc : Fp.toInt undef (Fp.fin q) = ⌊q⌋ := by
    rw [← ht]
    exact toInt_of_some undef (toInt?_fin_of_range (by rw [ht]; omega) (by rw [ht]; omega))
  refine ⟨?_, by omega⟩
  unfold num_rows_outf
  rw [hq, hc]
  exact wrap32_of_range (by omega) (by omega)

/-! ## Facts about loops and text -/

theorem foldl_append_eq {α β : Type} (g : β → List α) (l : List β) (out : List α) :
    l.foldl (fun s i => s ++ g i) out = out ++ (l.map g).flatten := by
  induction l generalizing out with
  | nil => simp
  | cons x xs ih => simp [ih, List.append_assoc]

theorem forLoop_append {α : Type} (n : ℤ) (g : ℕ → List α) (out : List α) :
    forLoop n (fun i s => s ++ g i) out = out ++ ((List.range n.toNat).map g).flatten :=
  foldl_append_eq g _ out

theorem digitChar_mem (d : ℕ) (h : d < 10) :
    Nat.digitChar d ∈ ['0', '1', '2', '3', '4', '5', '6', '7', '8', '9'] := by
  interval_cases d <;> simp [Nat.digitChar]

theorem toDigitsCore_mem (fuel : ℕ) : ∀ (n : ℕ) (acc : List Char) (c : Char),
    c ∈ Nat.toDigitsCore 10 fuel n acc →
      c ∈ acc ∨ c ∈ ['0', '1', '2', '3', '4', '5', '6', '7', '8', '9'] := by
  induction fuel with
  | zero => intro n acc c h; left; simpa [Nat.toDigitsCore] using h
  | succ fuel ih =>
    intro n acc c h
    simp only [Nat.toDigitsCore] at h
    have hd := digitChar_mem (n % 10) (Nat.mod_lt _ (by norm_num))
    split_ifs at h
    · rcases List.mem_cons.mp h with h | h
      · right; rw [h]; exact hd
      · left; exact h
    · rcases ih _ _ _ h with h | h
      · rcases List.mem_cons.mp h with h | h
        · right; rw [h]; exact hd
        · left; exact h
      · right; exact h

theorem fmtNat_mem (n : ℕ) (c : Char) (h : c ∈ fmtNat n) :
    c ∈ ['0', '1', '2', '3', '4', '5', '6', '7', '8', '9'] := by
  rcases toDigitsCore_mem _ _ _ _ h with h | h
  · simp at h
  · exact h

theorem fmtInt_mem (n : ℤ) (c : Char) (h : c ∈ fmtInt n) :
    c ∈ ['-', '0', '1', '2', '3', '4', '5', '6', '7', '8', '9'] := by
  unfold fmtInt at h
  split_ifs at h
  · rcases List.mem_cons.mp h with h | h
    · rw [h]; simp
    · exact List.mem_cons_of_mem _ (fmtNat_mem _ _ h)
  · exact List.mem_cons_of_mem _ (fmtNat_mem _ _ h)

theorem comma_not_mem_fmtInt (n : ℤ) : ',' ∉ fmtInt n := by
  intro h
  have := fmtInt_mem n _ h
  simp at this

theorem newline_not_mem_fmtInt (n : ℤ) : '\n' ∉ fmtInt n := by
  intro h
  have := fmtInt_mem n _ h
  simp at this

theorem linesOf_append_newline (l rest : List Char) (h : '\n' ∉ l) :
    linesOf (l ++ '\n' :: rest) = l :: linesOf rest := by
  induction l with
  | nil => simp [linesOf]
  | cons c l ih =>
    have hc : c ≠ '\n' := fun e => h (by rw [e]; exact List.mem_cons_self _ _)
    have hl : '\n' ∉ l := fun e => h (List.mem_cons_of_mem _ e)
    have e := ih hl
    rw [List.cons_append]
    simp only [linesOf, hc, if_false]
    rw [e]

theorem linesOf_rows (body : ℕ → List Char) (h : ∀ i, '\n' ∉ body i) (l : List ℕ) :
    linesOf ((l.map (fun i => body i ++ ['\n'])).flatten) = l.map body := by
  induction l with
  | nil => simp [linesOf]
  | cons x xs ih =>
    simp only [List.map_cons, List.flatten_cons, List.append_assoc, List.singleton_append]
    rw [linesOf_append_newline _ _ (h x), ih]

theorem splitOn_of_not_mem (sep : Char) (f : List Char) (h : sep ∉ f) :
    splitOn sep f = [f] := by
  induction f with
  | nil => simp [splitOn]
  | cons c f ih =>
    have hc : c ≠ sep := fun e => h (by rw [e]; exact List.mem_cons_self _ _)
    have hl : sep ∉ f := fun e => h (List.mem_cons_of_mem _ e)
    simp only [splitOn, hc, if_false, ih hl]

theorem splitOn_append_sep (sep : Char) (f rest : List Char) (h : sep ∉ f) :
    splitOn sep (f ++ sep :: rest) = f :: splitOn sep rest := by
  induction f with
  | nil => simp [splitOn]
  | cons c f ih =>
    have hc : c ≠ sep := fun e => h (by rw [e]; exact List.mem_cons_self _ _)
    have hl : sep ∉ f := fun e => h (List.mem_cons_of_mem _ e)
    have e := ih hl
    rw [List.cons_append]
    simp only [splitOn, hc, if_false]
    rw [e]

theorem splitOn_fields (sep : Char) (fs : List (List Char)) (h : ∀ f ∈ fs, sep ∉ f) :
    ∀ f0 : List Char, sep ∉ f0 →
      splitOn sep (f0 ++ (fs.map (fun f => sep :: f)).flatten) = f0 :: fs := by
  induction fs with
  | nil => intro f0 h0; simpa using splitOn_of_not_mem sep f0 h0
  | cons g gs ih =>
    intro f0 h0
    simp only [List.map_cons, List.flatten_cons, List.cons_append]
    rw [splitOn_append_sep _ _ _ h0]
    rw [ih (fun f hf => h f (List.mem_cons_of_mem _ hf)) g (h g (List.mem_cons_self _ _))]

theorem writeRow_eq (undef : Fp → ℤ) (heibeg heistp : Fp) (a : Buffer) (i : ℕ)
    (out : List Char) :
    writeRow undef heibeg heistp a i out =
      out ++ (fmtInt (rowLabel undef heibeg heistp i) ++
        ((List.range 20).map (fun j => ',' :: fmtInt (renderParam undef (a.at i j)))).flatten
        ++ ['\n']) := by
  unfold writeRow
  simp only [forLoop_append]
  simp [List.append_assoc]

theorem rowText_eq (undef : Fp → ℤ) (heibeg heistp : Fp) (a : Buffer) (i : ℕ) :
    rowText undef heibeg heistp a i =
      (fmtInt (rowLabel undef heibeg heistp i) ++
        ((List.range 20).map (fun j => ',' :: fmtInt (renderParam undef (a.at i j)))).flatten)
        ++ ['\n'] := by
  unfold rowText
  rw [writeRow_eq]
  simp

theorem csvText_eq (undef : Fp → ℤ) (heibeg heistp : Fp) (n : ℤ) (a : Buffer) :
    csvText undef heibeg heistp n a =
      writeHeader [] ++ ((List.range n.toNat).map (rowText undef heibeg heistp a)).flatten := by
  unfold csvText
  have : (writeRow undef heibeg heistp a) =
      fun i out => out ++ rowText undef heibeg heistp a i := by
    funext i out
    rw [writeRow_eq, rowText_eq]
  rw [this, forLoop_append]

theorem writeHeader_eq : writeHeader [] =
    "Height (km),Ne (cm^-3),NmF2 (cm^-3),HmF2 (km),TeF2 (K),NmE (cm^-3),HmE (km),TeE (K),NeE (cm^-3),B0 (km),B1,B2,B3,B4,B5,B6,B7,B8,B9,B10,B11,".toList ++ ['\n'] := by
  decide

theorem newline_not_mem_rowBody (undef : Fp → ℤ) (heibeg heistp : Fp) (a : Buffer) (i : ℕ) :
    '\n' ∉ fmtInt (rowLabel undef heibeg heistp i) ++
      ((List.range 20).map (fun j => ',' :: fmtInt (renderParam undef (a.at i j)))).flatten := by
  intro h
  rcases List.mem_append.mp h with h | h
  · exact newline_not_mem_fmtInt _ h
  · obtain ⟨l, hl, hc⟩ := List.mem_flatten.mp h
    obtain ⟨j, _, rfl⟩ := List.mem_map.mp hl
    rcases List.mem_cons.mp hc with hc | hc
    · exact absurd hc (by decide)
    · exact newline_not_mem_fmtInt _ hc

theorem linesOf_csvText (undef : Fp → ℤ) (heibeg heistp : Fp) (n : ℤ) (a : Buffer) :
    linesOf (csvText undef heibeg heistp n a) =
      (writeHeader []).dropLast ::
        (List.range n.toNat).map (fun i => (rowText undef heibeg heistp a i).dropLast) := by
  have hrow : rowText undef heibeg heistp a = fun i =>
      (fmtInt (rowLabel undef heibeg heistp i) ++
        ((List.range 20).map (fun j => ',' :: fmtInt (renderParam undef (a.at i j)))).flatten)
        ++ ['\n'] := by
    funext i; exact rowText_eq undef heibeg heistp a i
  rw [csvText_eq, hrow, writeHeader_eq]
  simp only [List.dropLast_concat]
  rw [List.append_assoc, List.singleton_append,
    linesOf_append_newline _ _ (by decide),
    linesOf_rows _ (newline_not_mem_rowBody undef heibeg heistp a)]

theorem csvText_congr (undef : Fp → ℤ) (heibeg heistp : Fp) (n : ℤ) (a a' : Buffer)
    (h : ∀ i j : ℕ, (i : ℤ) < n → j < 20 → a'.at i j = a.at i j) :
    csvText undef heibeg heistp n a' = csvText undef heibeg heistp n a := by
  rw [csvText_eq, csvText_eq]
  have hrows : (List.range n.toNat).map (rowText undef heibeg heistp a') =
      (List.range n.toNat).map (rowText undef heibeg heistp a) := by
    apply List.map_congr_left
    intro i hi
    have hi' : (i : ℤ) < n := by
      have := List.mem_range.mp hi
      omega
    have hcells : (List.range 20).map (fun j => ',' :: fmtInt (renderParam undef (a'.at i j))) =
        (List.range 20).map (fun j => ',' :: fmtInt (renderParam undef (a.at i j))) := by
      apply List.map_congr_left
      intro j hj
      rw [h i j hi' (List.mem_range.mp hj)]
    rw [rowText_eq, rowText_eq, hcells]
  rw [hrows]

theorem csv_rows_of_range (undef : Fp → ℤ) (a : Buffer) (heibeg heiend heistp : Fp) (q : ℚ)
    (hle : Fp.le heibeg heiend = true) (hstep : Fp.lt (Fp.fin 0) heistp = true)
    (hq : stepQuotient heibeg heiend heistp = Fp.fin q) (hcap : ⌊q⌋ + 1 ≤ 1000) :
    num_rows_outf undef heibeg heiend heistp = ⌊q⌋ + 1 ∧
    1 ≤ num_rows_outf undef heibeg heiend heistp ∧
    linesOf (csvText undef heibeg heistp (num_rows_outf undef heibeg heiend heistp) a) =
      (writeHeader []).dropLast ::
        (List.range (⌊q⌋ + 1).toNat).map
          (fun i => (rowText undef heibeg heistp a i).dropLast) ∧
    (linesOf (csvText undef heibeg heistp
      (num_rows_outf undef heibeg heiend heistp) a)).length = (⌊q⌋ + 1).toNat + 1 ∧
    ∀ a' : Buffer,
      (∀ i j : ℕ, (i : ℤ) < num_rows_outf undef heibeg heiend heistp → j < 20 →
        a'.at i j = a.at i j) →
      csvText undef heibeg heistp (num_rows_outf undef heibeg heiend heistp) a' =
        csvText undef heibeg heistp (num_rows_outf undef heibeg heiend heistp) a := by
  obtain ⟨hn, h1⟩ := num_rows_outf_eq undef hle hstep hq hcap
  refine ⟨hn, by rw [hn]; exact h1, ?_, ?_, ?_⟩
  · rw [linesOf_csvText, hn]
  · rw [linesOf_csvText, hn]; simp
  · intro a' h
    exact csvText_congr undef heibeg heistp _ a a' h

theorem builtin_range :
    builtinRequest.heibeg = Fp.fin 600 ∧ builtinRequest.heiend = Fp.fin 800 ∧
      builtinRequest.heistp = Fp.fin 10 := by
  decide!

theorem builtin_stepQuotient :
    stepQuotient builtinRequest.heibeg builtinRequest.heiend builtinRequest.heistp =
      Fp.fin 20 := by
  decide!

theorem builtin_num_rows (undef : Fp → ℤ) :
    num_rows_outf undef builtinRequest.heibeg builtinRequest.heiend builtinRequest.heistp
      = 21 := by
  have h := (num_rows_outf_eq undef (by decide!) (by decide!) builtin_stepQuotient
    (by decide!)).1
  rw [h]
  decide!

/-! ## Facts about arrays -/

theorem CArray.get_set {α : Type} {n : ℕ} [Inhabited α] (a : CArray α n) (i k : ℕ) (v : α) :
    (a.set i v).get k = if k = i ∧ i < n then v else a.get k := by
  obtain ⟨c, hs⟩ := a
  subst hs
  simp only [CArray.get, CArray.set, Array.setD]
  by_cases hi : i < c.size
  · simp only [hi, dite_true, and_true]
    by_cases hk : k = i
    · subst hk
      simp [Array.getD, hi]
    · simp [Array.getD, hk, Ne.symm hk]
  · simp [hi]

theorem CArray.ext {α : Type} {n : ℕ} [Inhabited α] (a b : CArray α n)
    (h : ∀ k, k < n → a.get k = b.get k) : a = b := by
  obtain ⟨ca, ha⟩ := a
  obtain ⟨cb, hb⟩ := b
  have : ca = cb := by
    apply Array.ext
    · rw [ha, hb]
    · intro k h1 h2
      have := h k (by rw [← ha]; exact h1)
      simpa [CArray.get, Array.getD, h1, h2] using this
  subst this
  rfl

theorem Buffer.at_put (a : Buffer) (i j i' j' : ℕ) (v : Fp) (hj : j < 20) (hj' : j' < 20)
    (hi : i < 1000) :
    (a.put i j v).at i' j' = if i' = i ∧ j' = j then v else a.at i' j' := by
  unfold Buffer.at Buffer.put
  rw [CArray.get_set]
  by_cases h : i' = i ∧ j' = j
  · obtain ⟨rfl, rfl⟩ := h
    have : i' * 20 + j' < 20000 := by omega
    simp [this]
  · have : ¬ (i' * 20 + j' = i * 20 + j) := by
      intro e
      apply h
      omega
    simp [this, h]

theorem convert_fold_get (a : Buffer) (m : ℕ) (hm : m ≤ 1000) (k : ℕ) :
    ((List.range m).foldl (fun a i => a.put i 0 (convertCell (a.at i 0))) a).get k =
      if k % 20 = 0 ∧ k / 20 < m then convertCell (a.get k) else a.get k := by
  induction m generalizing k with
  | zero => simp
  | succ m ih =>
    rw [List.range_succ, List.foldl_append]
    simp only [List.foldl_cons, List.foldl_nil]
    have hprev := ih (by omega)
    set prev := (List.range m).foldl (fun a i => a.put i 0 (convertCell (a.at i 0))) a
    have hcell : prev.at m 0 = a.at m 0 := by
      unfold Buffer.at
      rw [hprev]
      have : ¬ ((m * 20 + 0) % 20 = 0 ∧ (m * 20 + 0) / 20 < m) := by omega
      simp only [this, if_false]
    unfold Buffer.put
    rw [CArray.get_set, hcell, hprev]
    by_cases hk : k = m * 20 + 0
    · subst hk
      have h1 : m * 20 + 0 < 20000 := by omega
      have h2 : (m * 20 + 0) % 20 = 0 ∧ (m * 20 + 0) / 20 < m + 1 := by omega
      simp only [h1, h2, and_self, if_true]
      rfl
    · by_cases hc : k % 20 = 0 ∧ k / 20 < m
      · have h2 : k % 20 = 0 ∧ k / 20 < m + 1 := by omega
        simp only [hk, false_and, if_false, hc, h2, and_self, if_true]
      · have h2 : ¬ (k % 20 = 0 ∧ k / 20 < m + 1) := by omega
        simp only [hk, false_and, if_false, hc, h2]

theorem convertUnits_get (a : Buffer) (n : ℤ) (hn : n ≤ 1000) (k : ℕ) :
    (convertUnits n a).get k =
      if k % 20 = 0 ∧ (k / 20 : ℕ) < n.toNat then convertCell (a.get k) else a.get k := by
  unfold convertUnits forLoop
  exact convert_fold_get a n.toNat (by omega) k

theorem fill_fold_get {n : ℕ} (v : ℤ) (m : ℕ) : ∀ (s : ℕ) (jf : CArray ℤ n) (k : ℕ),
    ((List.range' s m).foldl (fun jf i => jf.set i v) jf).get k =
      if s ≤ k ∧ k < s + m ∧ k < n then v else jf.get k := by
  induction m with
  | zero =>
    intro s jf k
    have : ¬ (s ≤ k ∧ k < s + 0 ∧ k < n) := by omega
    simp only [List.range'_zero, List.foldl_nil, this, if_false]
  | succ m ih =>
    intro s jf k
    simp only [List.range'_succ, List.foldl_cons]
    rw [ih, CArray.get_set]
    by_cases h1 : s + 1 ≤ k ∧ k < s + 1 + m ∧ k < n
    · have h2 : s ≤ k ∧ k < s + (m + 1) ∧ k < n := by omega
      rw [if_pos h1, if_pos h2]
    · by_cases h3 : k = s ∧ s < n
      · have h2 : s ≤ k ∧ k < s + (m + 1) ∧ k < n := by omega
        rw [if_neg h1, if_pos h3, if_pos h2]
      · have h2 : ¬ (s ≤ k ∧ k < s + (m + 1) ∧ k < n) := by omega
        rw [if_neg h1, if_neg h3, if_neg h2]

theorem forLoopIncl_fill_get {n : ℕ} (v : ℤ) (lo hi : ℕ) (jf : CArray ℤ n) (k : ℕ) :
    (forLoopIncl lo hi (fun i jf => jf.set i v) jf).get k =
      if lo ≤ k ∧ k < lo + (hi + 1 - lo) ∧ k < n then v else jf.get k :=
  fill_fold_get v (hi + 1 - lo) lo jf k

theorem defaultFlags_get (jf : Flags) (k : ℕ) :
    (defaultFlags jf).get k =
      if k ∈ [4, 5, 6, 21, 23, 28, 29, 30, 33, 35, 39, 40, 47] then 0
      else if 1 ≤ k ∧ k ≤ 50 then 1 else jf.get k := by
  delta defaultFlags
  dsimp only
  iterate 13 rw [CArray.get_set]
  rw [forLoopIncl_fill_get]
  by_cases hmem : k ∈ [4, 5, 6, 21, 23, 28, 29, 30, 33, 35, 39, 40, 47]
  · rw [if_pos hmem]
    simp only [List.mem_cons, List.mem_singleton, List.not_mem_nil, or_false] at hmem
    rcases hmem with h | h | h | h | h | h | h | h | h | h | h | h | h <;> subst h <;> rfl
  · rw [if_neg hmem]
    simp only [List.mem_cons, List.mem_singleton, List.not_mem_nil, or_false, not_or] at hmem
    iterate 13 rw [if_neg (by omega)]
    by_cases hr : 1 ≤ k ∧ k ≤ 50
    · rw [if_pos hr, if_pos (by omega)]
    · rw [if_neg hr, if_neg (by omega)]

/-! ## Facts about the height labels -/

theorem add_eq_fin (f : Format) {x y : Fp} {r : ℚ} (h : Fp.add f x y = Fp.fin r) :
    ∃ a b, x = Fp.fin a ∧ y = Fp.fin b ∧ r = rnd f.prec f.emin (a + b) := by
  rcases x with a | s | _ <;> rcases y with b | t | _ <;> simp only [Fp.add] at h
  · exact ⟨a, b, rfl, rfl, round_fin_eq f h⟩
  all_goals first | exact absurd h (by simp) | split_ifs at h

theorem mul_eq_fin (f : Format) {x y : Fp} {r : ℚ} (h : Fp.mul f x y = Fp.fin r) :
    ∃ a b, x = Fp.fin a ∧ y = Fp.fin b ∧ r = rnd f.prec f.emin (a * b) := by
  rcases x with a | s | _ <;> rcases y with b | t | _ <;> simp only [Fp.mul] at h
  · exact ⟨a, b, rfl, rfl, round_fin_eq f h⟩
  all_goals first | exact absurd h (by simp) | split_ifs at h

theorem current_height_eq_fin {heibeg heistp : Fp} {i : ℕ} {h : ℚ}
    (e : current_height heibeg heistp i = Fp.fin h) :
    ∃ b s, heibeg = Fp.fin b ∧ heistp = Fp.fin s ∧
      h = rnd 24 (-126) (b + rnd 24 (-126) (rnd 24 (-126) (i : ℚ) * s)) := by
  unfold current_height fadd fmul at e
  obtain ⟨b, p, hb, hp, hh⟩ := add_eq_fin _ e
  obtain ⟨r, s, hr, hs, hp'⟩ := mul_eq_fin _ hp
  have hr' : r = rnd 24 (-126) (i : ℚ) := by
    have := round_fin_eq binary32 (x := ((i : ℤ) : ℚ)) (r := r) hr
    simpa [binary32] using this
  refine ⟨b, s, hb, hs, ?_⟩
  rw [hh, hp', hr']
  rfl

theorem rowLabel_mono {heibeg heistp : Fp} {i j : ℕ} {li lj : ℤ} (hij : i ≤ j)
    (hstep : Fp.lt (Fp.fin 0) heistp = true)
    (hi : Fp.toInt? (current_height heibeg heistp i) = some li)
    (hj : Fp.toInt? (current_height heibeg heistp j) = some lj) : li ≤ lj := by
  obtain ⟨xi, exi, rfl⟩ := toInt?_eq_some hi
  obtain ⟨xj, exj, rfl⟩ := toInt?_eq_some hj
  obtain ⟨b, s, hb, hs, rfl⟩ := current_height_eq_fin exi
  obtain ⟨b', s', hb', hs', rfl⟩ := current_height_eq_fin exj
  have eb : b' = b := Fp.fin.inj (hb'.symm.trans hb)
  have es : s' = s := Fp.fin.inj (hs'.symm.trans hs)
  subst eb es
  have hs0 : 0 < s' := by
    rw [hs] at hstep
    simpa [Fp.lt] using hstep
  apply truncInt_mono
  apply rnd_mono 24 (by norm_num)
  apply add_le_add_left
  apply rnd_mono 24 (by norm_num)
  apply mul_le_mul_of_nonneg_right _ hs0.le
  apply rnd_mono 24 (by norm_num)
  exact_mod_cast hij

theorem rowText_fields (undef : Fp → ℤ) (heibeg heistp : Fp) (a : Buffer) (i : ℕ) :
    splitOn ',' (rowText undef heibeg heistp a i).dropLast =
      fmtInt (rowLabel undef heibeg heistp i) ::
        (List.range 20).map (fun j => fmtInt (renderParam undef (a.at i j))) := by
  rw [rowText_eq, List.dropLast_concat]
  have := splitOn_fields ','
    ((List.range 20).map (fun j => fmtInt (renderParam undef (a.at i j))))
    (by
      intro f hf
      obtain ⟨j, _, rfl⟩ := List.mem_map.mp hf
      exact comma_not_mem_fmtInt _)
    (fmtInt (rowLabel undef heibeg heistp i)) (comma_not_mem_fmtInt _)
  rw [List.map_map] at this
  exact this

/-! ## Facts about the run as a whole -/

theorem mainWith_outcome (env : Env) (req : Request) :
    (mainWith env req).2 =
      if 1000 < num_rows_outf env.undef req.heibeg req.heiend req.heistp then Outcome.undefined
      else if env.fopenOk = false then Outcome.exit 1 else Outcome.exit 0 := by
  unfold mainWith
  simp only
  split_ifs <;> rfl

theorem mainWith_start (env : Env) (req : Request) :
    (mainWith env req).1.take 5 =
      [Event.readapf107, Event.read_ig_rz, Event.printf "Calling iri_sub_...\n" [],
       Event.iri_sub (callArgs env req), Event.printf "iri_sub_ call finished.\n" []] := by
  unfold mainWith
  simp only
  split_ifs <;> simp [forLoop_append]

theorem iri_sub_mem_mainWith (env : Env) (req : Request) :
    Event.iri_sub (callArgs env req) ∈ (mainWith env req).1 := by
  have h := mainWith_start env req
  have : Event.iri_sub (callArgs env req) ∈ (mainWith env req).1.take 5 := by
    rw [h]; simp
  exact List.mem_of_mem_take this

theorem renderParam_of_some (undef : Fp → ℤ) {v : Fp} {n : ℤ}
    (h : Fp.toInt? (fadd v (Fp.fin (1 / 2))) = some n) : renderParam undef v = n :=
  toInt_of_some undef h

theorem electron_density_twice (a : Buffer) (n : ℤ) (hn : n ≤ 1000) (i : ℕ)
    (hi : (i : ℤ) < n) :
    electron_density_cm3 (convertUnits n a) i =
      fdiv (convertCell (a.at i 0)) (Fp.fin 1000000) := by
  unfold electron_density_cm3 Buffer.at
  rw [convertUnits_get a n hn]
  have : (i * 20 + 0) % 20 = 0 ∧ (i * 20 + 0) / 20 < n.toNat := by omega
  simp only [this, and_self, if_true]

theorem header_fields :
    splitOn ',' (writeHeader []).dropLast =
      ["Height (km)".toList, "Ne (cm^-3)".toList, "NmF2 (cm^-3)".toList, "HmF2 (km)".toList,
       "TeF2 (K)".toList, "NmE (cm^-3)".toList, "HmE (km)".toList, "TeE (K)".toList,
       "NeE (cm^-3)".toList, "B0 (km)".toList, "B1".toList, "B2".toList, "B3".toList,
       "B4".toList, "B5".toList, "B6".toList, "B7".toList, "B8".toList, "B9".toList,
       "B10".toList, "B11".toList, []] := by
  decide

theorem renderParam_eq_truncInt (undef : Fp → ℤ) {v : Fp} {s : ℚ}
    (hs : fadd v (Fp.fin (1 / 2)) = Fp.fin s) (h1 : -2147483648 ≤ truncInt s)
    (h2 : truncInt s ≤ 2147483647) : renderParam undef v = truncInt s := by
  unfold renderParam
  rw [hs]
  exact toInt_of_some undef (toInt?_fin_of_range h1 h2)

theorem truncInt_of_neg {q : ℚ} (h : q < 0) : truncInt q = ⌈q⌉ := if_neg (not_le.mpr h)

/-! ## Facts about representable values and the rounding error -/

theorem ilog2_lt_of_abs_lt {x : ℚ} (hx : x ≠ 0) {k : ℤ} (h : |x| < (2 : ℚ) ^ k) :
    ilog2 x < k := by
  have s := (ilog2_spec x hx).1
  exact (zpow_lt_zpow_iff_right₀ (by norm_num : (1 : ℚ) < 2)).mp (lt_of_le_of_lt s h)

theorem abs_lt_pow_binade (emin : ℤ) {x : ℚ} (hx : x ≠ 0) :
    |x| < (2 : ℚ) ^ (binade emin x + 1) := by
  have s := (ilog2_spec x hx).2
  refine lt_of_lt_of_le s (zpow_le_zpow_right₀ (by norm_num) ?_)
  have : ilog2 x ≤ binade emin x := le_max_left _ _
  omega

theorem rnd_of_repr (p : ℕ) (emin m e : ℤ) (hm : |m| < 2 ^ p)
    (he : emin - ((p : ℤ) - 1) ≤ e) :
    rnd p emin ((m : ℚ) * (2 : ℚ) ^ e) = (m : ℚ) * (2 : ℚ) ^ e := by
  have two_pos : (0 : ℚ) < 2 := by norm_num
  by_cases hm0 : m = 0
  · subst hm0
    simp [rnd_zero]
  have hx : (m : ℚ) * (2 : ℚ) ^ e ≠ 0 :=
    mul_ne_zero (by exact_mod_cast hm0) (zpow_pos two_pos e).ne'
  set x := (m : ℚ) * (2 : ℚ) ^ e with hxdef
  have habs : |x| < (2 : ℚ) ^ ((p : ℤ) + e) := by
    rw [hxdef, abs_mul, abs_of_pos (zpow_pos two_pos e), zpow_add₀ two_pos.ne']
    apply mul_lt_mul_of_pos_right _ (zpow_pos two_pos e)
    have : ((|m| : ℤ) : ℚ) < ((2 ^ p : ℤ) : ℚ) := by exact_mod_cast hm
    rw [zpow_natCast]
    push_cast at this
    exact this
  have hlog : ilog2 x < (p : ℤ) + e := ilog2_lt_of_abs_lt hx habs
  have hb : binade emin x - ((p : ℤ) - 1) ≤ e := by
    unfold binade
    rcases max_cases (ilog2 x) emin with ⟨h, _⟩ | ⟨h, _⟩ <;> rw [h] <;> omega
  obtain ⟨k, hk⟩ : ∃ k : ℕ, e = binade emin x - ((p : ℤ) - 1) + k :=
    ⟨(e - (binade emin x - ((p : ℤ) - 1))).toNat, by omega⟩
  have hu : (0 : ℚ) < (2 : ℚ) ^ (binade emin x - ((p : ℤ) - 1)) := zpow_pos two_pos _
  have hsplit : x = ((m * 2 ^ k : ℤ) : ℚ) * (2 : ℚ) ^ (binade emin x - ((p : ℤ) - 1)) := by
    rw [hxdef]
    conv_lhs => rw [hk, zpow_add₀ two_pos.ne', zpow_natCast]
    push_cast
    ring
  unfold rnd
  simp only
  have hq : x / (2 : ℚ) ^ (binade emin x - ((p : ℤ) - 1)) = ((m * 2 ^ k : ℤ) : ℚ) := by
    rw [div_eq_iff hu.ne']
    exact hsplit
  rw [hq, roundHalfEven_intCast]
  exact hsplit.symm

theorem rnd_error (p : ℕ) (emin : ℤ) (x : ℚ) :
    |rnd p emin x - x| ≤ |x| * (2 : ℚ) ^ (-(p : ℤ)) + (2 : ℚ) ^ (emin - (p : ℤ)) := by
  have two_pos : (0 : ℚ) < 2 := by norm_num
  by_cases hx : x = 0
  · subst hx
    rw [rnd_zero]
    simp only [sub_zero, abs_zero, zero_mul, zero_add]
    exact (zpow_pos two_pos _).le
  set u := (2 : ℚ) ^ (binade emin x - ((p : ℤ) - 1)) with hu
  have hupos : 0 < u := zpow_pos two_pos _
  have hclose := roundHalfEven_close (x / u)
  have herr : |rnd p emin x - x| ≤ u / 2 := by
    have e1 : rnd p emin x - x = -((x / u - roundHalfEven (x / u)) * u) := by
      unfold rnd
      simp only [← hu]
      field_simp
      ring
    rw [e1, abs_neg, abs_mul, abs_of_pos hupos]
    calc |x / u - ↑(roundHalfEven (x / u))| * u ≤ 1 / 2 * u :=
          mul_le_mul_of_nonneg_right hclose hupos.le
      _ = u / 2 := by ring
  have hhalf : u / 2 = (2 : ℚ) ^ (binade emin x - (p : ℤ)) := by
    rw [hu]
    have : binade emin x - ((p : ℤ) - 1) = binade emin x - (p : ℤ) + 1 := by ring
    rw [this, zpow_add₀ two_pos.ne']
    simp
  rw [hhalf] at herr
  refine herr.trans ?_
  unfold binade
  rcases max_cases (ilog2 x) emin with ⟨h, _⟩ | ⟨h, _⟩
  · rw [h]
    have s := (ilog2_spec x hx).1
    have : (2 : ℚ) ^ (ilog2 x - (p : ℤ)) ≤ |x| * (2 : ℚ) ^ (-(p : ℤ)) := by
      rw [sub_eq_add_neg, zpow_add₀ two_pos.ne']
      exact mul_le_mul_of_nonneg_right s (zpow_pos two_pos _).le
    linarith [(zpow_pos two_pos (emin - (p : ℤ))).le]
  · rw [h]
    have : 0 ≤ |x| * (2 : ℚ) ^ (-(p : ℤ)) :=
      mul_nonneg (abs_nonneg _) (zpow_pos two_pos _).le
    linarith

theorem round_of_fixed (f : Format) {x : ℚ} (h1 : rnd f.prec f.emin x = x)
    (h2 : |x| ≤ f.maxFinite) : f.round x = Fp.fin x := by
  unfold Format.round
  simp only [h1, h2, if_true]

theorem round_fin_self (f : Format) {x : ℚ} (h : f.round x = Fp.fin x) :
    rnd f.prec f.emin x = x ∧ |x| ≤ f.maxFinite := by
  unfold Format.round at h
  simp only at h
  split_ifs at h with hc
  have e := Fp.fin.inj h
  rw [e] at hc
  exact ⟨e, hc⟩

theorem round_intCast (f : Format) (m : ℤ) (hm : |m| < 2 ^ f.prec)
    (he : f.emin - ((f.prec : ℤ) - 1) ≤ 0) (hM : (2 : ℚ) ^ f.prec ≤ f.maxFinite) :
    f.round (m : ℚ) = Fp.fin (m : ℚ) := by
  apply round_of_fixed
  · have := rnd_of_repr f.prec f.emin m 0 hm he
    simpa using this
  · have : ((|m| : ℤ) : ℚ) < ((2 ^ f.prec : ℤ) : ℚ) := by exact_mod_cast hm
    push_cast at this
    exact this.le.trans hM

theorem maxFinite32_eq : binary32.maxFinite = ((16777215 : ℤ) : ℚ) * (2 : ℚ) ^ (104 : ℤ) := by
  unfold Format.maxFinite binary32
  norm_num

theorem maxFinite32_le_64 : binary32.maxFinite ≤ binary64.maxFinite := by
  decide!

theorem rnd_abs_le_maxFinite32 (p : ℕ) (hp : 24 ≤ p) (emin : ℤ) (he : emin ≤ 127) {x : ℚ}
    (hx : |x| ≤ binary32.maxFinite) : |rnd p emin x| ≤ binary32.maxFinite := by
  have hfix : rnd p emin binary32.maxFinite = binary32.maxFinite := by
    rw [maxFinite32_eq]
    apply rnd_of_repr
    · calc |(16777215 : ℤ)| < 2 ^ 24 := by norm_num
        _ ≤ 2 ^ p := pow_le_pow_right₀ (by norm_num) hp
    · omega
  have hb := abs_le.mp hx
  rw [abs_le]
  constructor
  · have := rnd_mono p (by omega) emin hb.1
    rw [rnd_neg, hfix] at this
    exact this
  · have := rnd_mono p (by omega) emin hb.2
    rw [hfix] at this
    exact this

theorem float_is_double {x : ℚ} (h : binary32.round x = Fp.fin x) :
    binary64.round x = Fp.fin x := by
  obtain ⟨hfix, hmax⟩ := round_fin_self _ h
  apply round_of_fixed
  · by_cases hx : x = 0
    · rw [hx]; exact rnd_zero _ _
    have two_pos : (0 : ℚ) < 2 := by norm_num
    have hfix' : rnd 24 (-126) x = x := hfix
    set u := (2 : ℚ) ^ (binade (-126) x - (((24 : ℕ) : ℤ) - 1)) with hu
    have hupos : 0 < u := zpow_pos two_pos _
    have hxe : x = (roundHalfEven (x / u) : ℚ) * u := by
      conv_lhs => rw [← hfix']
      rfl
    have hlt : |x / u| < ((2 ^ 24 : ℤ) : ℚ) := by
      rw [abs_div, abs_of_pos hupos, div_lt_iff₀ hupos]
      have := abs_lt_pow_binade (-126) hx
      have e : ((2 ^ 24 : ℤ) : ℚ) * u = (2 : ℚ) ^ (binade (-126) x + 1) := by
        have e1 : ((2 ^ 24 : ℤ) : ℚ) = (2 : ℚ) ^ (24 : ℤ) := by norm_num
        have e2 : binade (-126) x + 1 = 24 + (binade (-126) x - (((24 : ℕ) : ℤ) - 1)) := by
          push_cast
          ring
        rw [hu, e1, e2, zpow_add₀ two_pos.ne']
      rw [e]
      exact this
    have hb := abs_lt.mp hlt
    have h1 := roundHalfEven_mono hb.2.le
    have h2 := roundHalfEven_mono hb.1.le
    rw [roundHalfEven_intCast] at h1
    rw [← Int.cast_neg, roundHalfEven_intCast] at h2
    have hm : |roundHalfEven (x / u)| < 2 ^ 53 := by
      rw [abs_lt]
      constructor <;> norm_num at h1 h2 ⊢ <;> omega
    have hb2 : (-126 : ℤ) ≤ binade (-126) x := le_max_right _ _
    have := rnd_of_repr 53 (-1022) (roundHalfEven (x / u))
      (binade (-126) x - (((24 : ℕ) : ℤ) - 1)) hm (by push_cast; omega)
    rw [← hu, ← hxe] at this
    exact this
  · exact hmax.trans maxFinite32_le_64

theorem round_eq_of_le (f : Format) {x : ℚ} (h : |rnd f.prec f.emin x| ≤ f.maxFinite) :
    f.round x = Fp.fin (rnd f.prec f.emin x) := by
  unfold Format.round
  simp only [h, if_true]

theorem double_round_error (r : ℚ) :
    |rnd 24 (-126) (rnd 53 (-1022) r) - r| ≤ |r| / 8388608 + 1 / 2 ^ 149 := by
  have e1 := rnd_error 53 (-1022) r
  have e2 := rnd_error 24 (-126) (rnd 53 (-1022) r)
  have c53 : (2 : ℚ) ^ (-((53 : ℕ) : ℤ)) = 1 / 9007199254740992 := by norm_num
  have c24 : (2 : ℚ) ^ (-((24 : ℕ) : ℤ)) = 1 / 16777216 := by norm_num
  have t64 : (2 : ℚ) ^ ((-1022 : ℤ) - ((53 : ℕ) : ℤ)) ≤ 1 / 2 ^ 152 := by
    have : (2 : ℚ) ^ ((-1022 : ℤ) - ((53 : ℕ) : ℤ)) ≤ (2 : ℚ) ^ (-152 : ℤ) :=
      zpow_le_zpow_right₀ (by norm_num) (by norm_num)
    refine this.trans (le_of_eq ?_)
    rw [zpow_neg, one_div]
    norm_cast
  have t32 : (2 : ℚ) ^ ((-126 : ℤ) - ((24 : ℕ) : ℤ)) = 1 / 2 ^ 150 := by
    have : (-126 : ℤ) - ((24 : ℕ) : ℤ) = -150 := by norm_num
    rw [this, zpow_neg, one_div]
    norm_cast
  rw [c53] at e1
  rw [c24, t32] at e2
  set d := rnd 53 (-1022) r with hd
  set T := (2 : ℚ) ^ ((-1022 : ℤ) - ((53 : ℕ) : ℤ)) with hT
  have hTpos : 0 ≤ T := (zpow_pos (by norm_num) _).le
  have tri : |rnd 24 (-126) d - r| ≤ |rnd 24 (-126) d - d| + |d - r| := abs_sub_le _ _ _
  have hdabs : |d| ≤ |r| + |d - r| := by
    have := abs_add (d - r) r
    simp only [sub_add_cancel] at this
    linarith
  have hr := abs_nonneg r
  have p149 : (1 : ℚ) / 2 ^ 149 = 2 * (1 / 2 ^ 150) := by
    norm_num
  have p152 : (1 : ℚ) / 2 ^ 152 = (1 / 2 ^ 150) / 4 := by
    norm_num
  set S := (1 : ℚ) / 2 ^ 150 with hS
  rw [p149]
  rw [p152] at t64
  linarith

theorem convertCell_float {x : ℚ} (h : binary32.round x = Fp.fin x) :
    convertCell (Fp.fin x) = Fp.fin (rnd 24 (-126) (rnd 53 (-1022) (x / 1000000))) := by
  obtain ⟨_, hmax⟩ := round_fin_self _ h
  have hr : |x / 1000000| ≤ binary32.maxFinite := by
    rw [abs_div]
    have : |(1000000 : ℚ)| = 1000000 := abs_of_pos (by norm_num)
    rw [this]
    have h0 := abs_nonneg x
    calc |x| / 1000000 ≤ |x| := by
          rw [div_le_iff₀ (by norm_num : (0 : ℚ) < 1000000)]; linarith
      _ ≤ binary32.maxFinite := hmax
  have hd : |rnd 53 (-1022) (x / 1000000)| ≤ binary32.maxFinite :=
    rnd_abs_le_maxFinite32 53 (by norm_num) (-1022) (by norm_num) hr
  have hy : |rnd 24 (-126) (rnd 53 (-1022) (x / 1000000))| ≤ binary32.maxFinite :=
    rnd_abs_le_maxFinite32 24 (by norm_num) (-126) (by norm_num) hd
  have h64 : binary64.round (x / 1000000) = Fp.fin (rnd 53 (-1022) (x / 1000000)) :=
    round_eq_of_le binary64 (hd.trans maxFinite32_le_64)
  have h32 : binary32.round (rnd 53 (-1022) (x / 1000000)) =
      Fp.fin (rnd 24 (-126) (rnd 53 (-1022) (x / 1000000))) :=
    round_eq_of_le binary32 hy
  unfold convertCell toFloat toDouble
  simp only [Fp.cast, float_is_double h, Fp.div]
  rw [if_neg (by norm_num), h64]
  simp only [Fp.cast, h32]

theorem convertCell_exact (k : ℤ) (hk : |k| < 16777216) :
    convertCell (Fp.fin (1000000 * (k : ℚ))) = Fp.fin (k : ℚ) := by
  have h1 : binary64.round (((1000000 * k : ℤ)) : ℚ) = Fp.fin ((1000000 * k : ℤ) : ℚ) := by
    apply round_intCast
    · show |1000000 * k| < 2 ^ 53
      rw [abs_mul]
      have : |(1000000 : ℤ)| = 1000000 := by norm_num
      rw [this]
      have := abs_nonneg k
      norm_num
      omega
    · decide
    · decide!
  have h2 : binary64.round (k : ℚ) = Fp.fin (k : ℚ) := by
    apply round_intCast
    · show |k| < 2 ^ 53
      norm_num
      omega
    · decide
    · decide!
  have h3 : binary32.round (k : ℚ) = Fp.fin (k : ℚ) := by
    apply round_intCast
    · show |k| < 2 ^ 24
      norm_num
      omega
    · decide
    · decide!
  push_cast at h1
  unfold convertCell toFloat toDouble
  simp only [Fp.cast, h1, Fp.div]
  rw [if_neg (by norm_num)]
  have : (1000000 * (k : ℚ)) / 1000000 = (k : ℚ) := by field_simp
  rw [this, h2]
  simp only [Fp.cast, h3]

theorem convertCell_inf (s : Bool) : convertCell (Fp.inf s) = Fp.inf s := by
  unfold convertCell toFloat toDouble
  have : decide ((1000000 : ℚ) < 0) = false := by
    rw [decide_eq_false_iff_not]; norm_num
  simp [Fp.cast, Fp.div, this]

theorem convertCell_nan : convertCell Fp.nan = Fp.nan := by
  unfold convertCell toFloat toDouble
  simp [Fp.cast, Fp.div]

theorem truncInt_intCast (m : ℤ) : truncInt (m : ℚ) = m := by
  unfold truncInt
  split_ifs <;> simp

theorem toInt?_of_range {h : ℚ} (h1 : -2147483649 < h) (h2 : h < 2147483648) :
    Fp.toInt? (Fp.fin h) = some (truncInt h) := by
  apply toInt?_fin_of_range
  · unfold truncInt
    split_ifs with h0
    · have := Int.floor_nonneg.mpr h0
      omega
    · have : (-2147483649 : ℤ) < ⌈h⌉ := Int.lt_ceil.mpr (by exact_mod_cast h1)
      omega
  · unfold truncInt
    split_ifs with h0
    · have : ⌊h⌋ < (2147483648 : ℤ) := Int.floor_lt.mpr (by exact_mod_cast h2)
      omega
    · have : ⌈h⌉ ≤ (0 : ℤ) := Int.ceil_le.mpr (by push_cast; linarith [not_le.mp h0])
      omega

theorem current_height_int (b s : ℤ) (i : ℕ) (hi : (i : ℤ) < 16777216)
    (his : |(i : ℤ) * s| < 16777216) (hsum : |b + (i : ℤ) * s| < 16777216) :
    current_height (Fp.fin (b : ℚ)) (Fp.fin (s : ℚ)) i =
      Fp.fin ((b + (i : ℤ) * s : ℤ) : ℚ) := by
  have r1 : binary32.round (((i : ℤ)) : ℚ) = Fp.fin (((i : ℤ)) : ℚ) := by
    apply round_intCast
    · show |(i : ℤ)| < 2 ^ 24
      rw [abs_of_nonneg (by omega)]
      norm_num
      omega
    · decide
    · decide!
  have r2 : binary32.round ((((i : ℤ) * s : ℤ)) : ℚ) = Fp.fin ((((i : ℤ) * s : ℤ)) : ℚ) := by
    apply round_intCast
    · show |(i : ℤ) * s| < 2 ^ 24
      norm_num
      exact his
    · decide
    · decide!
  have r3 : binary32.round (((b + (i : ℤ) * s : ℤ)) : ℚ) =
      Fp.fin (((b + (i : ℤ) * s : ℤ)) : ℚ) := by
    apply round_intCast
    · show |b + (i : ℤ) * s| < 2 ^ 24
      norm_num
      exact hsum
    · decide
    · decide!
  unfold current_height fadd fmul Fp.ofInt
  rw [r1]
  simp only [Fp.mul]
  have e2 : (((i : ℤ)) : ℚ) * (s : ℚ) = ((((i : ℤ) * s : ℤ)) : ℚ) := by push_cast; ring
  rw [e2, r2]
  simp only [Fp.add]
  have e3 : (b : ℚ) + ((((i : ℤ) * s : ℤ)) : ℚ) = (((b + (i : ℤ) * s : ℤ)) : ℚ) := by
    push_cast; ring
  rw [e3, r3]

theorem rowLabel_int (undef : Fp → ℤ) (b s : ℤ) (i : ℕ) (hi : (i : ℤ) < 16777216)
    (his : |(i : ℤ) * s| < 16777216) (hsum : |b + (i : ℤ) * s| < 16777216) :
    rowLabel undef (Fp.fin (b : ℚ)) (Fp.fin (s : ℚ)) i = b + (i : ℤ) * s := by
  unfold rowLabel
  rw [current_height_int b s i hi his hsum]
  have hb := abs_lt.mp hsum
  have := toInt?_fin_of_range (q := ((b + (i : ℤ) * s : ℤ) : ℚ))
    (by rw [truncInt_intCast]; omega) (by rw [truncInt_intCast]; omega)
  rw [truncInt_intCast] at this
  exact toInt_of_some undef this

/-! ## The worked example of the console profile -/

theorem megaBuffer_at_zero : megaBuffer.at 0 0 = Fp.fin 1000000 := by decide!

theorem converted_mega_at_zero : (convertUnits 21 megaBuffer).at 0 0 = Fp.fin 1 := by
  unfold Buffer.at
  rw [convertUnits_get megaBuffer 21 (by decide)]
  decide!

theorem mega_divided_once : fdiv (Fp.fin 1000000) (Fp.fin 1000000) = Fp.fin 1 := by decide!

theorem mega_divided_twice :
    fdiv (convertCell (Fp.fin 1000000)) (Fp.fin 1000000) =
      Fp.fin (8796093 / 8796093022208) := by
  decide!

theorem micro_ne_one : Fp.fin (8796093 / 8796093022208) ≠ Fp.fin 1 := by decide!

/-! ## The claims -/

/-- C1: for a height range with `heibeg <= heiend`, `heistp > 0` and a finite `float`
quotient `q = (heiend - heibeg) / heistp` whose row count fits the 1000-row buffer, the row
count `(int)q + 1` of `main` is `floor q + 1`, lies in `1..1000`, and the CSV text is the
header line followed by exactly that many data rows, rows `0 .. num_rows - 1` in order; no
buffer row of index `>= num_rows` influences the text; for the built-in range 600..800 by
10 the row count is 21. -/
theorem csv_row_count (undef : Fp → ℤ) (a : Buffer) (heibeg heiend heistp : Fp) (q : ℚ)
    (hle : Fp.le heibeg heiend = true) (hstep : Fp.lt (Fp.fin 0) heistp = true)
    (hq : stepQuotient heibeg heiend heistp = Fp.fin q) (hcap : ⌊q⌋ + 1 ≤ 1000) :
    (num_rows_outf undef heibeg heiend heistp = ⌊q⌋ + 1 ∧
     1 ≤ num_rows_outf undef heibeg heiend heistp ∧
     linesOf (csvText undef heibeg heistp (num_rows_outf undef heibeg heiend heistp) a) =
       (writeHeader []).dropLast ::
         (List.range (⌊q⌋ + 1).toNat).map
           (fun i => (rowText undef heibeg heistp a i).dropLast) ∧
     (linesOf (csvText undef heibeg heistp
       (num_rows_outf undef heibeg heiend heistp) a)).length = (⌊q⌋ + 1).toNat + 1 ∧
     ∀ a' : Buffer,
       (∀ i j : ℕ, (i : ℤ) < num_rows_outf undef heibeg heiend heistp → j < 20 →
         a'.at i j = a.at i j) →
       csvText undef heibeg heistp (num_rows_outf undef heibeg heiend heistp) a' =
         csvText undef heibeg heistp (num_rows_outf undef heibeg heiend heistp) a) ∧
    num_rows_outf undef builtinRequest.heibeg builtinRequest.heiend builtinRequest.heistp
      = 21 :=
  ⟨csv_rows_of_range undef a heibeg heiend heistp q hle hstep hq hcap, builtin_num_rows undef⟩

/-- C1 at the range 600 .. 800 km in steps of 10 km: 21 data rows, 22 lines. -/
theorem csv_row_count_witness :
    Fp.le (Fp.fin 600) (Fp.fin 800) = true ∧ Fp.lt (Fp.fin 0) (Fp.fin 10) = true ∧
    num_rows_outf (fun _ => 0) (Fp.fin 600) (Fp.fin 800) (Fp.fin 10) = 21 ∧
    (linesOf (csvText (fun _ => 0) (Fp.fin 600) (Fp.fin 10)
      (num_rows_outf (fun _ => 0) (Fp.fin 600) (Fp.fin 800) (Fp.fin 10))
      megaBuffer)).length = 22 := by
  have h := (csv_row_count (fun _ => 0) megaBuffer
    (Fp.fin 600) (Fp.fin 800) (Fp.fin 10) 20 (by decide!) (by decide!) (by decide!)
    (by decide!)).1
  have e : ⌊(20 : ℚ)⌋ + 1 = 21 := by decide!
  rw [e] at h
  exact ⟨by decide!, by decide!, h.1, h.2.2.2.1⟩

/-- C2 (the code departs from it): `main` writes `(int)(v + 0.5f)`, a truncation toward
zero.  For the values 2.4, 2.5 and -2.5 this is `floor (v + 0.5)` (2, 3 and -2), but the
value -1 is written as 0 and the `float` nearest to -2.6 as -2, where `floor (v + 0.5)` is
-1 and -3. -/
theorem render_param_truncates (undef : Fp → ℤ) :
    renderParam undef (binary32.round (24 / 10)) = 2 ∧
    renderParam undef (binary32.round (25 / 10)) = 3 ∧
    renderParam undef (binary32.round (-25 / 10)) = -2 ∧
    renderParam undef (Fp.fin (-1)) = 0 ∧ ⌊(-1 : ℚ) + 1 / 2⌋ = -1 ∧
    binary32.round (-26 / 10) = Fp.fin (-5452595 / 2097152) ∧
    renderParam undef (Fp.fin (-5452595 / 2097152)) = -2 ∧
    ⌊(-5452595 / 2097152 : ℚ) + 1 / 2⌋ = -3 := by
  refine ⟨renderParam_of_some undef (by decide!), renderParam_of_some undef (by decide!),
    renderParam_of_some undef (by decide!), renderParam_of_some undef (by decide!),
    by decide!, by decide!, renderParam_of_some undef (by decide!), by decide!⟩

/-- C3 (the code departs from it): the constant `0303` of main.c:19 has a leading zero and
is therefore octal, so the date selector `main` passes to the oracle is 195, not 303; read
as month * 100 + day it is month 1, day 95.  Written `303` the constant would be 303. -/
theorem builtin_mmdd_is_octal (env : Env) :
    builtinRequest.mmdd = 195 ∧ builtinRequest.mmdd ≠ 303 ∧
    builtinRequest.mmdd / 100 = 1 ∧ builtinRequest.mmdd % 100 = 95 ∧
    cIntConstant "303" = 303 ∧
    (callArgs env builtinRequest).mmdd = 195 ∧
    Event.iri_sub (callArgs env builtinRequest) ∈ (main env).1 :=
  ⟨by decide, by decide, by decide, by decide, by decide,
    (by decide : builtinRequest.mmdd = 195), iri_sub_mem_mainWith env builtinRequest⟩

/-- C4 as stated fails: with `heistp = 0` the run invokes the oracle, handing it the zero
step, and ends with exit status 0; it does not fail before the call. -/
theorem zero_step_reaches_oracle :
    Event.iri_sub (callArgs exampleEnv zeroStepRequest) ∈
      (mainWith exampleEnv zeroStepRequest).1 ∧
    (callArgs exampleEnv zeroStepRequest).heistp = Fp.fin 0 ∧
    (mainWith exampleEnv zeroStepRequest).2 = Outcome.exit 0 ∧
    ¬ ((mainWith exampleEnv zeroStepRequest).2 ≠ Outcome.exit 0 ∧
        ∀ args, Event.iri_sub args ∉ (mainWith exampleEnv zeroStepRequest).1) := by
  have hmem := iri_sub_mem_mainWith exampleEnv zeroStepRequest
  refine ⟨hmem, rfl, ?_, ?_⟩
  · rw [mainWith_outcome]
    decide!
  · intro h
    exact h.2 _ hmem

/-- C4 amended: `main` validates no height range.  For every request, whatever its begin,
end and step, the run starts with the two priming calls and the call of `iri_sub_`, which
receives the begin, end and step of the request unchanged; nothing fails before that
call. -/
theorem oracle_called_unconditionally (env : Env) (req : Request) :
    (mainWith env req).1.take 5 =
      [Event.readapf107, Event.read_ig_rz, Event.printf "Calling iri_sub_...\n" [],
       Event.iri_sub (callArgs env req), Event.printf "iri_sub_ call finished.\n" []] ∧
    (callArgs env req).heibeg = req.heibeg ∧
    (callArgs env req).heiend = req.heiend ∧
    (callArgs env req).heistp = req.heistp ∧
    Event.iri_sub (callArgs env req) ∈ (mainWith env req).1 :=
  ⟨mainWith_start env req, rfl, rfl, rfl, iri_sub_mem_mainWith env req⟩

/-- C5: for every raw height buffer and every `num_rows <= 1000`, after the conversion
loop `a[i][0]` is the raw entry divided by `1.0e6` (the C division of main.c:84) for every
row `i < num_rows`, and every other entry of the buffer, columns 1..19 of every row and all
20 columns of the rows `i >= num_rows`, is the raw value.  The quotient is that of the
numbers: for a raw `float` value `x` the cell becomes the finite value obtained from
`x / 1000000` by rounding to `double` and then to `float`, within
`|x / 1000000| / 2^23 + 2^-149` of `x / 1000000`, and exactly `k` when `x = 1000000 * k`
for an integer `|k| < 2^24`; an infinite or NaN entry stays what it is. -/
theorem unit_conversion_frame (a : Buffer) (n : ℤ) (hn : n ≤ 1000) :
    (∀ i : ℕ, (i : ℤ) < n → (convertUnits n a).at i 0 = convertCell (a.at i 0)) ∧
    (∀ i j : ℕ, i < 1000 → j < 20 → ¬ ((i : ℤ) < n ∧ j = 0) →
      (convertUnits n a).at i j = a.at i j) ∧
    (∀ k : ℕ, k < 20000 → (∀ i : ℕ, (i : ℤ) < n → k ≠ i * 20) →
      (convertUnits n a).get k = a.get k) ∧
    (∀ (i : ℕ) (x : ℚ), (i : ℤ) < n → a.at i 0 = Fp.fin x → binary32.round x = Fp.fin x →
      ∃ y : ℚ, (convertUnits n a).at i 0 = Fp.fin y ∧
        y = rnd 24 (-126) (rnd 53 (-1022) (x / 1000000)) ∧
        |y - x / 1000000| ≤ |x / 1000000| / 8388608 + 1 / 2 ^ 149) ∧
    (∀ (i : ℕ) (k : ℤ), (i : ℤ) < n → |k| < 16777216 →
      a.at i 0 = Fp.fin (1000000 * (k : ℚ)) → (convertUnits n a).at i 0 = Fp.fin (k : ℚ)) ∧
    (∀ (i : ℕ) (s : Bool), (i : ℤ) < n → a.at i 0 = Fp.inf s →
      (convertUnits n a).at i 0 = Fp.inf s) ∧
    (∀ i : ℕ, (i : ℤ) < n → a.at i 0 = Fp.nan → (convertUnits n a).at i 0 = Fp.nan) := by
  have hcell : ∀ i : ℕ, (i : ℤ) < n →
      (convertUnits n a).at i 0 = convertCell (a.at i 0) := by
    intro i hi
    unfold Buffer.at
    rw [convertUnits_get a n hn]
    have : (i * 20 + 0) % 20 = 0 ∧ (i * 20 + 0) / 20 < n.toNat := by omega
    simp only [this, and_self, if_true]
  refine ⟨hcell, ?_, ?_, ?_, ?_, ?_, ?_⟩
  · intro i j hi hj hno
    unfold Buffer.at
    rw [convertUnits_get a n hn]
    have : ¬ ((i * 20 + j) % 20 = 0 ∧ (i * 20 + j) / 20 < n.toNat) := by
      intro h
      apply hno
      omega
    simp only [this, if_false]
  · intro k hk hno
    rw [convertUnits_get a n hn]
    have : ¬ (k % 20 = 0 ∧ k / 20 < n.toNat) := by
      intro h
      exact hno (k / 20) (by omega) (by omega)
    simp only [this, if_false]
  · intro i x hi hx hfl
    refine ⟨rnd 24 (-126) (rnd 53 (-1022) (x / 1000000)), ?_, rfl, double_round_error _⟩
    rw [hcell i hi, hx, convertCell_float hfl]
  · intro i k hi hk hx
    rw [hcell i hi, hx, convertCell_exact k hk]
  · intro i s hi hx
    rw [hcell i hi, hx, convertCell_inf]
  · intro i hi hx
    rw [hcell i hi, hx, convertCell_nan]

/-- C5 on a buffer holding 1.0e6 everywhere, 21 rows converted: row 0 and row 20 hold 1 in
column 0, while column 1 and row 21 keep the raw 1.0e6. -/
theorem unit_conversion_frame_witness :
    (21 : ℤ) ≤ 1000 ∧
    megaBuffer.at 0 0 = Fp.fin (1000000 * ((1 : ℤ) : ℚ)) ∧
    (convertUnits 21 megaBuffer).at 0 0 = Fp.fin ((1 : ℤ) : ℚ) ∧
    (convertUnits 21 megaBuffer).at 20 0 = Fp.fin 1 ∧
    (convertUnits 21 megaBuffer).at 0 1
      = Fp.fin 1000000 ∧
    (convertUnits 21 megaBuffer).at 21 0
      = Fp.fin 1000000 := by
  have h := unit_conversion_frame megaBuffer 21 (by decide)
  refine ⟨by decide, by decide!, ?_, ?_, ?_, ?_⟩
  · exact h.2.2.2.2.1 0 1 (by decide) (by decide) (by decide!)
  · rw [h.1 20 (by decide)]; decide!
  · rw [h.2.1 0 1 (by decide) (by decide) (by decide)]; decide!
  · rw [h.2.1 21 0 (by decide) (by decide) (by decide)]; decide!

/-- C6: whatever the array held before, the default profile built by `main` leaves
positions 1..50 with exactly the 13 switches 4, 5, 6, 21, 23, 28, 29, 30, 33, 35, 39, 40, 47
off and the other 37 on; positions 1..50 do not depend on the prior contents, building the
default on top of the default gives the same array, and these 50 values are what the
oracle is handed. -/
theorem default_flags_profile (jf0 : Flags) :
    (List.range' 1 50).map (defaultFlags jf0).get =
      [1, 1, 1, 0, 0, 0, 1, 1, 1, 1, 1, 1, 1, 1, 1, 1, 1, 1, 1, 1, 0, 1, 0, 1, 1,
       1, 1, 0, 0, 0, 1, 1, 0, 1, 0, 1, 1, 1, 0, 0, 1, 1, 1, 1, 1, 1, 0, 1, 1, 1] ∧
    (List.range' 1 50).filter (fun i => decide ((defaultFlags jf0).get i = 0)) =
      [4, 5, 6, 21, 23, 28, 29, 30, 33, 35, 39, 40, 47] ∧
    ((List.range' 1 50).filter (fun i => decide ((defaultFlags jf0).get i = 0))).length = 13 ∧
    ((List.range' 1 50).filter (fun i => decide ((defaultFlags jf0).get i = 1))).length = 37 ∧
    (∀ jf1 : Flags, (List.range' 1 50).map (defaultFlags jf1).get =
      (List.range' 1 50).map (defaultFlags jf0).get) ∧
    defaultFlags (defaultFlags jf0) = defaultFlags jf0 ∧
    (∀ (env : Env) (req : Request), (callArgs env req).jf =
      [1, 1, 1, 0, 0, 0, 1, 1, 1, 1, 1, 1, 1, 1, 1, 1, 1, 1, 1, 1, 0, 1, 0, 1, 1,
       1, 1, 0, 0, 0, 1, 1, 0, 1, 0, 1, 1, 1, 0, 0, 1, 1, 1, 1, 1, 1, 0, 1, 1, 1]) := by
  have hget : ∀ jf : Flags, (defaultFlags jf).get = fun k =>
      if k ∈ [4, 5, 6, 21, 23, 28, 29, 30, 33, 35, 39, 40, 47] then (0 : ℤ)
      else if 1 ≤ k ∧ k ≤ 50 then 1 else jf.get k := by
    intro jf; funext k; exact defaultFlags_get jf k
  have hmap : ∀ jf : Flags, (List.range' 1 50).map (defaultFlags jf).get =
      [1, 1, 1, 0, 0, 0, 1, 1, 1, 1, 1, 1, 1, 1, 1, 1, 1, 1, 1, 1, 0, 1, 0, 1, 1,
       1, 1, 0, 0, 0, 1, 1, 0, 1, 0, 1, 1, 1, 0, 0, 1, 1, 1, 1, 1, 1, 0, 1, 1, 1] := by
    intro jf; rw [hget]; rfl
  refine ⟨hmap jf0, ?_, ?_, ?_, ?_, ?_, ?_⟩
  · rw [hget]; rfl
  · rw [hget]; rfl
  · rw [hget]; rfl
  · intro jf1; rw [hmap jf1, hmap jf0]
  · apply CArray.ext
    intro k _
    rw [defaultFlags_get, defaultFlags_get]
    split_ifs <;> rfl
  · intro env req
    show (List.range 50).map (fun k => (defaultFlags env.jf0).get (k + 1)) = _
    rw [hget]
    rfl

/-- C7 (the code departs from it): the header line ends in a comma, so split on commas it
has 22 fields, the 21 labels and an empty one after them, while every data row has 21,
the height label and the 20 parameters in column order. -/
theorem header_has_trailing_field (undef : Fp → ℤ) (heibeg heistp : Fp) (a : Buffer)
    (i : ℕ) :
    splitOn ',' (writeHeader []).dropLast =
      ["Height (km)".toList, "Ne (cm^-3)".toList, "NmF2 (cm^-3)".toList, "HmF2 (km)".toList,
       "TeF2 (K)".toList, "NmE (cm^-3)".toList, "HmE (km)".toList, "TeE (K)".toList,
       "NeE (cm^-3)".toList, "B0 (km)".toList, "B1".toList, "B2".toList, "B3".toList,
       "B4".toList, "B5".toList, "B6".toList, "B7".toList, "B8".toList, "B9".toList,
       "B10".toList, "B11".toList, []] ∧
    (splitOn ',' (writeHeader []).dropLast).length = 22 ∧
    splitOn ',' (rowText undef heibeg heistp a i).dropLast =
      fmtInt (rowLabel undef heibeg heistp i) ::
        (List.range 20).map (fun j => fmtInt (renderParam undef (a.at i j))) ∧
    (splitOn ',' (rowText undef heibeg heistp a i).dropLast).length = 21 := by
  refine ⟨header_fields, by rw [header_fields]; rfl, rowText_fields undef heibeg heistp a i, ?_⟩
  rw [rowText_fields]
  simp

/-- C8 as stated fails where the height leaves the range of `int`: with begin 2147483520
and the positive step 128 there are two rows, the `float` sum of row 1 is 2147483648, whose
truncation is no `int`, and with `INT_MIN` delivered for that conversion the labels are
2147483520 and -2147483648: row 1 is not labelled with the truncated sum and the labels
decrease. -/
theorem labels_decrease_past_int_range :
    Fp.lt (Fp.fin 0) (Fp.fin 128) = true ∧
    num_rows_outf exampleEnv.undef (Fp.fin 2147483520) (Fp.fin 2147483648) (Fp.fin 128) = 2 ∧
    current_height (Fp.fin 2147483520) (Fp.fin 128) 1 = Fp.fin 2147483648 ∧
    truncInt 2147483648 = 2147483648 ∧
    rowLabel exampleEnv.undef (Fp.fin 2147483520) (Fp.fin 128) 0 = 2147483520 ∧
    rowLabel exampleEnv.undef (Fp.fin 2147483520) (Fp.fin 128) 1 = -2147483648 ∧
    ¬ (rowLabel exampleEnv.undef (Fp.fin 2147483520) (Fp.fin 128) 0 ≤
        rowLabel exampleEnv.undef (Fp.fin 2147483520) (Fp.fin 128) 1) := by
  refine ⟨by decide!, by decide!, by decide!, by decide!, by decide!, by decide!, by decide!⟩

/-- C8 amended: the first comma-separated field of data row `i` is
`(int)(heibeg + i * heistp)` and the data rows follow the header in order of increasing
`i`.  Whenever that `float` sum `h` is finite and lies in the range of `int`
(`-2147483649 < h < 2147483648`), the label is `h` truncated toward zero, `h` being
`heibeg + i * heistp` with the conversion of `i`, the product and the sum each rounded to
`float`; for a positive step the labels of two such rows `i <= j` are non-decreasing; for
an integral begin `b` and step `s` with `i`, `|i * s|` and `|b + i * s|` below 2^24 the
label is exactly `b + i * s`; with the built-in begin 600 and step 10 row 0 is labelled 600
and row 20 is labelled 800. -/
theorem height_labels (undef : Fp → ℤ) (a : Buffer) (heibeg heistp : Fp) (n : ℤ)
    (i j : ℕ) :
    (splitOn ',' (rowText undef heibeg heistp a i).dropLast).head? =
      some (fmtInt (rowLabel undef heibeg heistp i)) ∧
    rowLabel undef heibeg heistp i =
      Fp.toInt undef (fadd heibeg (fmul (Fp.ofInt binary32 (i : ℤ)) heistp)) ∧
    (∀ h : ℚ, current_height heibeg heistp i = Fp.fin h →
      -2147483649 < h → h < 2147483648 →
      rowLabel undef heibeg heistp i = truncInt h ∧
      ∃ b s : ℚ, heibeg = Fp.fin b ∧ heistp = Fp.fin s ∧
        h = rnd 24 (-126) (b + rnd 24 (-126) (rnd 24 (-126) (i : ℚ) * s))) ∧
    linesOf (csvText undef heibeg heistp n a) =
      (writeHeader []).dropLast ::
        (List.range n.toNat).map (fun k => (rowText undef heibeg heistp a k).dropLast) ∧
    (i ≤ j → Fp.lt (Fp.fin 0) heistp = true →
      ∀ hi hj : ℚ, current_height heibeg heistp i = Fp.fin hi →
        -2147483649 < hi → hi < 2147483648 →
        current_height heibeg heistp j = Fp.fin hj →
        -2147483649 < hj → hj < 2147483648 →
        rowLabel undef heibeg heistp i ≤ rowLabel undef heibeg heistp j) ∧
    (∀ b s : ℤ, heibeg = Fp.fin (b : ℚ) → heistp = Fp.fin (s : ℚ) →
      (i : ℤ) < 16777216 → |(i : ℤ) * s| < 16777216 → |b + (i : ℤ) * s| < 16777216 →
      rowLabel undef heibeg heistp i = b + (i : ℤ) * s) ∧
    rowLabel undef builtinRequest.heibeg builtinRequest.heistp 0 = 600 ∧
    rowLabel undef builtinRequest.heibeg builtinRequest.heistp 20 = 800 := by
  refine ⟨?_, rfl, ?_, linesOf_csvText undef heibeg heistp n a, ?_, ?_,
    toInt_of_some undef (by decide!), toInt_of_some undef (by decide!)⟩
  · rw [rowText_fields]
    rfl
  · intro h hh h1 h2
    refine ⟨?_, current_height_eq_fin hh⟩
    unfold rowLabel
    rw [hh]
    exact toInt_of_some undef (toInt?_of_range h1 h2)
  · intro hij hstep hi hj ei hi1 hi2 ej hj1 hj2
    have si : Fp.toInt? (current_height heibeg heistp i) = some (truncInt hi) := by
      rw [ei]; exact toInt?_of_range hi1 hi2
    have sj : Fp.toInt? (current_height heibeg heistp j) = some (truncInt hj) := by
      rw [ej]; exact toInt?_of_range hj1 hj2
    have li : rowLabel undef heibeg heistp i = truncInt hi := toInt_of_some undef si
    have lj : rowLabel undef heibeg heistp j = truncInt hj := toInt_of_some undef sj
    rw [li, lj]
    exact rowLabel_mono hij hstep si sj
  · intro b s hb hs h1 h2 h3
    rw [hb, hs]
    exact rowLabel_int undef b s i h1 h2 h3

/-- C8 amended, at begin 600 and step 10: the sums of rows 0 and 20 are 600 and 800, both
in the range of `int`; the rows are labelled 600 and 800 = 600 + 20 * 10, non-decreasing. -/
theorem height_labels_witness :
    Fp.lt (Fp.fin 0) (Fp.fin 10) = true ∧
    current_height (Fp.fin 600) (Fp.fin 10) 0 = Fp.fin 600 ∧
    current_height (Fp.fin 600) (Fp.fin 10) 20 = Fp.fin 800 ∧
    rowLabel (fun _ => 0) (Fp.fin 600) (Fp.fin 10) 0 ≤
      rowLabel (fun _ => 0) (Fp.fin 600) (Fp.fin 10) 20 ∧
    rowLabel (fun _ => 0) (Fp.fin 600) (Fp.fin 10) 20 = truncInt 800 ∧
    rowLabel (fun _ => 0) (Fp.fin ((600 : ℤ) : ℚ)) (Fp.fin ((10 : ℤ) : ℚ)) 20 =
      600 + ((20 : ℕ) : ℤ) * 10 := by
  have h := height_labels (fun _ => 0) megaBuffer (Fp.fin 600) (Fp.fin 10) 21 0 20
  have h' := height_labels (fun _ => 0) megaBuffer (Fp.fin ((600 : ℤ) : ℚ))
    (Fp.fin ((10 : ℤ) : ℚ)) 21 20 20
  have h'' := height_labels (fun _ => 0) megaBuffer (Fp.fin 600) (Fp.fin 10) 21 20 20
  refine ⟨by decide!, by decide!, by decide!, ?_, ?_, ?_⟩
  · exact h.2.2.2.2.1 (by decide) (by decide!) 600 800 (by decide!) (by norm_num)
      (by norm_num) (by decide!) (by norm_num) (by norm_num)
  · exact (h''.2.2.1 800 (by decide!) (by norm_num) (by norm_num)).1
  · exact h'.2.2.2.2.2.1 600 10 rfl rfl (by decide) (by decide) (by decide)

/-- C9: element `a[i][j]` of the caller's row-major 1000 x 20 buffer and element
`OUTF(j+1, i+1)` of the oracle's 1-based column-major 20 x 1000 array lie at the same flat
position `i * 20 + j`; the map from index pairs to flat positions is a bijection onto
`0 .. 19999`; row `i` of the table is the column `i + 1` of `OUTF`, and `a[i][0]` is
`OUTF(1, i+1)`. -/
theorem buffer_layout :
    (∀ (i : Fin 1000) (j : Fin 20),
      cOffset i j = i.val * 20 + j.val ∧
      cOffset i j = fortranOffset (j.val + 1) (i.val + 1) ∧ cOffset i j < 20000) ∧
    (∀ (a : Buffer) (i : Fin 1000) (j : Fin 20), a.at i.val j.val = a.get (cOffset i j)) ∧
    Function.Injective (fun p : Fin 1000 × Fin 20 => cOffset p.1 p.2) ∧
    (∀ k : Fin 20000, ∃ (i : Fin 1000) (j : Fin 20), cOffset i j = k.val) ∧
    (∀ i : Fin 1000, (List.finRange 20).map (cOffset i) =
      (List.range' 1 20).map (fun r => fortranOffset r (i.val + 1))) ∧
    (∀ i : Fin 1000, cOffset i 0 = fortranOffset 1 (i.val + 1)) := by
  refine ⟨?_, ?_, ?_, ?_, ?_, ?_⟩
  · intro i j
    have hi := i.isLt
    have hj := j.isLt
    unfold cOffset fortranOffset
    refine ⟨rfl, by omega, by omega⟩
  · intro a i j
    rfl
  · rintro ⟨i, j⟩ ⟨i', j'⟩ h
    have hj := j.isLt
    have hj' := j'.isLt
    simp only [cOffset] at h
    have h1 : i.val = i'.val := by omega
    have h2 : j.val = j'.val := by omega
    exact Prod.ext (Fin.ext h1) (Fin.ext h2)
  · intro k
    have hk := k.isLt
    refine ⟨⟨k.val / 20, by omega⟩, ⟨k.val % 20, by omega⟩, ?_⟩
    simp only [cOffset]
    omega
  · intro i
    apply List.ext_getElem
    · simp
    · intro n h1 h2
      simp only [List.length_map, List.length_finRange] at h1
      simp only [List.getElem_map, List.getElem_finRange, List.getElem_range']
      unfold cOffset fortranOffset
      simp
      omega
  · intro i
    unfold cOffset fortranOffset
    simp
    omega

/-- C10 (the code departs from it): the console loop divides by `1.0e6f` the table entry
that the conversion loop has already divided by `1.0e6`.  For a raw column-0 value of
1.0e6 m^-3 the table, and so the Ne column of the CSV, holds 1 (cm^-3), while the console
value is the `float` nearest to 1.0e-6. -/
theorem console_density_divided_twice :
    megaBuffer.at 0 0 = Fp.fin 1000000 ∧
    (convertUnits 21 megaBuffer).at 0 0 = Fp.fin 1 ∧
    fdiv (megaBuffer.at 0 0) (Fp.fin 1000000) = Fp.fin 1 ∧
    electron_density_cm3 (convertUnits 21 megaBuffer) 0 =
      Fp.fin (8796093 / 8796093022208) ∧
    electron_density_cm3 (convertUnits 21 megaBuffer) 0 ≠ (convertUnits 21 megaBuffer).at 0 0 := by
  have h2 : electron_density_cm3 (convertUnits 21 megaBuffer) 0 =
      Fp.fin (8796093 / 8796093022208) := by
    rw [electron_density_twice megaBuffer 21 (by decide) 0 (by decide), megaBuffer_at_zero]
    exact mega_divided_twice
  refine ⟨megaBuffer_at_zero, converted_mega_at_zero, ?_, h2, ?_⟩
  · rw [megaBuffer_at_zero]
    exact mega_divided_once
  · rw [h2, converted_mega_at_zero]
    exact micro_ne_one

end IriModel
